import Mathlib

/-!
# Verification of the `sparky` benchmark tooling

Shallow embedding of the two Python scripts `tools/compare_benchmarks.py`
and `tools/jj_benchmark_trailer.py`.

Modelling conventions:
* Python strings are `List Char`.  Python's `str.strip`/`str.rstrip` default
  whitespace set and `str.splitlines` line-boundary set are modelled by
  `pyIsSpace` and `isLineBreak` below (the documented CPython sets).
  `str.lower` is modelled character-wise by `Char.toLower` (ASCII case
  mapping; every string the programs compare case-insensitively is ASCII).
* Python floats are modelled as exact rationals (`ℚ`); `%.Nf` formatting is
  modelled as correct rounding to `N` decimals with ties to even, which is
  how CPython formats the nearest-double value.
* Fallible steps (list indexing) are modelled with `Option` where a claim
  is about totality.
-/

namespace Sparky

/-- Characters stripped by Python's `str.strip()` / matched by `\s`:
space, tab, the line-break controls, and the Unicode space characters
(CPython's `str.isspace` set). -/
def pyIsSpace (c : Char) : Bool :=
  let n := c.toNat
  n = 32 || n = 9 || n = 10 || n = 13 || n = 11 || n = 12 ||
  n = 28 || n = 29 || n = 30 || n = 31 ||
  n = 0x85 || n = 0xa0 || n = 0x1680 || (0x2000 ≤ n && n ≤ 0x200a) ||
  n = 0x2028 || n = 0x2029 || n = 0x202f || n = 0x205f || n = 0x3000

/-- Line boundaries recognised by Python's `str.splitlines` (with `\r\n`
handled as a single boundary separately, in `normNewlines`). -/
def isLineBreak (c : Char) : Bool :=
  let n := c.toNat
  n = 10 || n = 13 || n = 11 || n = 12 || n = 28 || n = 29 || n = 30 ||
  n = 0x85 || n = 0x2028 || n = 0x2029

def isAsciiDigit (c : Char) : Bool :=
  48 ≤ c.toNat && c.toNat ≤ 57

/-- `[A-Za-z0-9]` of the trailer regular expression. -/
def isAlnumAscii (c : Char) : Bool :=
  (48 ≤ c.toNat && c.toNat ≤ 57) || (65 ≤ c.toNat && c.toNat ≤ 90) ||
  (97 ≤ c.toNat && c.toNat ≤ 122)

def pyLower (s : List Char) : List Char := s.map Char.toLower

def pyLstrip (s : List Char) : List Char := s.dropWhile pyIsSpace

def pyRstrip (s : List Char) : List Char := (s.reverse.dropWhile pyIsSpace).reverse

def pyStrip (s : List Char) : List Char := pyLstrip (pyRstrip s)

/-- Collapse each `\r\n` pair to a single `\n` (the one two-character line
boundary of `str.splitlines`). -/
def normNewlines : List Char → List Char
  | [] => []
  | '\r' :: '\n' :: rest => '\n' :: normNewlines rest
  | c :: rest => c :: normNewlines rest

/-- Worker for `splitlines` on a `\r\n`-normalised string: accumulate the
current line (reversed) and split at every line-break character; a break at
the very end does not open a further (empty) line. -/
def splitlinesGo : List Char → List Char → List (List Char)
  | [], cur => [cur.reverse]
  | c :: rest, cur =>
    if isLineBreak c then
      if rest.isEmpty then [cur.reverse]
      else cur.reverse :: splitlinesGo rest []
    else splitlinesGo rest (c :: cur)

/-- Python's `str.splitlines`. -/
def splitlines (s : List Char) : List (List Char) :=
  if s.isEmpty then [] else splitlinesGo (normNewlines s) []

/-- Python's `sep.join(parts)`. -/
def pyJoin (sep : List Char) : List (List Char) → List Char
  | [] => []
  | [x] => x
  | x :: xs => x ++ sep ++ pyJoin sep xs

/-! ## The trailer editor (`tools/jj_benchmark_trailer.py`, `update_trailer`) -/

/-- `trailer_pattern.match(line.strip())`: the stripped line starts with
`[A-Za-z0-9][A-Za-z0-9-]*:`.  (The regex needs no backtracking: `:` is not
in the repeated class, so greedy matching is exact.) -/
def isTrailerShaped (l : List Char) : Bool :=
  match pyStrip l with
  | [] => false
  | c :: rest =>
    isAlnumAscii c &&
      (match rest.dropWhile (fun d => isAlnumAscii d || d = '-') with
       | ':' :: _ => true
       | _ => false)

/-- The `while trailer_start > 0 and trailer_pattern.match(...)` loop of
`update_trailer`, as a count-down recursion on the candidate index. -/
def trailerStartFrom (lines : List (List Char)) : Nat → Nat
  | 0 => 0
  | i + 1 =>
    if isTrailerShaped (lines.getD i []) then trailerStartFrom lines i
    else i + 1

/-- The lines of a description after `existing.rstrip().splitlines()`. -/
def descLines (s : List Char) : List (List Char) := splitlines (pyRstrip s)

/-- Index of the first line of the (maximal) trailing trailer block. -/
def trailerStart (s : List Char) : Nat :=
  trailerStartFrom (descLines s) (descLines s).length

/-- The maximal trailing block of trailer-shaped lines of a description. -/
def trailerBlock (s : List Char) : List (List Char) :=
  (descLines s).drop (trailerStart s)

/-- `line.lower().startswith(f"{key.lower()}:")` — the removal test of
`update_trailer`. -/
def lineHasKey (key l : List Char) : Bool :=
  (pyLower key ++ [':']).isPrefixOf (pyLower l)

/-- Reassembly tail of `update_trailer`, shared with the `Option`-returning
variant used for the totality claim. -/
def updateTrailerFinish (lines : List (List Char)) (ts : Nat)
    (key value : List Char) : List Char :=
  let body := lines.take ts
  let trailers := lines.drop ts
  let kept := trailers.filter (fun line => !(lineHasKey key line))
  let trailers2 := kept ++ [key ++ ':' :: ' ' :: value]
  let body_text := pyRstrip (pyJoin ['\n'] body)
  let trailer_text := pyRstrip (pyJoin ['\n'] trailers2)
  if body_text ≠ [] ∧ trailer_text ≠ [] then
    body_text ++ '\n' :: '\n' :: trailer_text ++ ['\n']
  else if trailer_text ≠ [] then trailer_text ++ ['\n']
  else body_text ++ ['\n']

/-- `update_trailer(existing, key, value)`: append or replace a trailer line
with the given key. -/
def update_trailer (existing key value : List Char) : List Char :=
  let lines := descLines existing
  updateTrailerFinish lines (trailerStartFrom lines lines.length) key value

/-- The index-decrement loop with the list access made explicitly partial
(`none` on out-of-range access), for the totality claim. -/
def trailerStartFromChecked (lines : List (List Char)) : Nat → Option Nat
  | 0 => some 0
  | i + 1 =>
    match lines.get? i with
    | none => none
    | some l =>
      if isTrailerShaped l then trailerStartFromChecked lines i
      else some (i + 1)

/-- `update_trailer` with its sole partial operation (the indexing
`lines[trailer_start - 1]`) surfaced in `Option`. -/
def updateTrailerChecked (existing key value : List Char) : Option (List Char) :=
  let lines := descLines existing
  (trailerStartFromChecked lines lines.length).map
    (fun ts => updateTrailerFinish lines ts key value)

/-! ## Basic facts about the Python string primitives -/

theorem dropWhile_append_of_forall {p : Char → Bool} :
    ∀ (l1 l2 : List Char), (∀ c ∈ l1, p c = true) →
      (l1 ++ l2).dropWhile p = l2.dropWhile p := by
  intro l1 l2 h
  induction l1 with
  | nil => rfl
  | cons a t ih =>
    have ha : p a = true := h a (by simp)
    simp only [List.cons_append, List.dropWhile_cons, ha, if_true]
    exact ih (fun c hc => h c (by simp [hc]))

theorem pyRstrip_append_spaces {s t : List Char}
    (h : ∀ c ∈ t, pyIsSpace c = true) : pyRstrip (s ++ t) = pyRstrip s := by
  unfold pyRstrip
  rw [List.reverse_append, dropWhile_append_of_forall t.reverse s.reverse
    (fun c hc => h c (List.mem_reverse.mp hc))]

theorem pyRstrip_eq_self_of_last {s0 : List Char} {c : Char}
    (hc : pyIsSpace c = false) : pyRstrip (s0 ++ [c]) = s0 ++ [c] := by
  unfold pyRstrip
  rw [List.reverse_append]
  simp only [List.reverse_cons, List.reverse_nil, List.nil_append,
    List.singleton_append, List.dropWhile_cons, hc]
  simp

theorem pyRstrip_last_shape (s : List Char) :
    pyRstrip s = [] ∨ ∃ s0 c, pyRstrip s = s0 ++ [c] ∧ pyIsSpace c = false := by
  unfold pyRstrip
  cases hd : s.reverse.dropWhile pyIsSpace with
  | nil => left; rfl
  | cons a t =>
    right
    refine ⟨t.reverse, a, by simp, ?_⟩
    have h2 := List.head?_dropWhile_not pyIsSpace s.reverse
    rw [hd] at h2
    simpa using h2

theorem pyRstrip_ne_nil_of_mem {s : List Char} {c : Char}
    (hc : c ∈ s) (hns : pyIsSpace c = false) : pyRstrip s ≠ [] := by
  intro h
  have hall : ∀ x ∈ s.reverse, pyIsSpace x = true := by
    have : s.reverse.dropWhile pyIsSpace = [] := by
      have := congrArg List.reverse h
      simpa [pyRstrip] using this
    exact fun x hx => List.dropWhile_eq_nil_iff.mp this x hx
  have := hall c (List.mem_reverse.mpr hc)
  rw [hns] at this
  exact Bool.false_ne_true this

theorem pyLstrip_eq_self_of_head {c : Char} {t : List Char}
    (hc : pyIsSpace c = false) : pyLstrip (c :: t) = c :: t := by
  simp [pyLstrip, List.dropWhile_cons, hc]

theorem normNewlines_cons_cr_lf (rest : List Char) :
    normNewlines ('\r' :: '\n' :: rest) = '\n' :: normNewlines rest := rfl

theorem normNewlines_cons_of_ne {c : Char} (rest : List Char)
    (h : ¬(c = '\r' ∧ rest.head? = some '\n')) :
    normNewlines (c :: rest) = c :: normNewlines rest := by
  rw [normNewlines.eq_def]
  split
  · rename_i heq; cases heq
  · rename_i r heq
    rw [List.cons_eq_cons] at heq
    exact absurd ⟨heq.1, by rw [heq.2]; rfl⟩ h
  · rename_i c2 r heq
    rw [List.cons_eq_cons] at heq
    rw [heq.1, heq.2]

theorem normNewlines_ne_nil {c : Char} {rest : List Char} :
    normNewlines (c :: rest) ≠ [] := by
  rw [normNewlines.eq_def]
  split
  · rename_i heq; cases heq
  · simp
  · simp

theorem normNewlines_append_newline (a b : List Char) :
    normNewlines (a ++ '\n' :: b) = normNewlines (a ++ ['\n']) ++ normNewlines b := by
  suffices h : ∀ (n : Nat) (a : List Char), a.length ≤ n →
      normNewlines (a ++ '\n' :: b) = normNewlines (a ++ ['\n']) ++ normNewlines b from
    h a.length a le_rfl
  intro n
  induction n with
  | zero =>
    intro a ha
    rw [List.length_eq_zero.mp (Nat.le_zero.mp ha)]
    simp [normNewlines]
  | succ n ih =>
    intro a ha
    match a with
    | [] => simp [normNewlines]
    | c :: a2 =>
      by_cases hc : c = '\r'
      · subst hc
        match a2 with
        | [] => simp [normNewlines_cons_cr_lf, normNewlines]
        | c2 :: a3 =>
          by_cases hc2 : c2 = '\n'
          · subst hc2
            simp only [List.cons_append]
            rw [normNewlines_cons_cr_lf, normNewlines_cons_cr_lf, List.cons_append,
              ih a3 (by simp at ha; omega)]
          · have h1 : ¬('\r' = '\r' ∧ (c2 :: (a3 ++ '\n' :: b)).head? = some '\n') := by
              intro hcon; exact hc2 (Option.some_injective _ hcon.2)
            have h2 : ¬('\r' = '\r' ∧ (c2 :: (a3 ++ ['\n'])).head? = some '\n') := by
              intro hcon; exact hc2 (Option.some_injective _ hcon.2)
            simp only [List.cons_append]
            rw [normNewlines_cons_of_ne _ h1, normNewlines_cons_of_ne _ h2, List.cons_append]
            have hih := ih (c2 :: a3) (by simp at ha ⊢; omega)
            simp only [List.cons_append] at hih
            rw [hih]
      · have h1 : ¬(c = '\r' ∧ (a2 ++ '\n' :: b).head? = some '\n') := fun hcon => hc hcon.1
        have h2 : ¬(c = '\r' ∧ (a2 ++ ['\n']).head? = some '\n') := fun hcon => hc hcon.1
        simp only [List.cons_append]
        rw [normNewlines_cons_of_ne _ h1, normNewlines_cons_of_ne _ h2, List.cons_append,
          ih a2 (by simp at ha; omega)]

theorem normNewlines_append_newline_ends (a : List Char) :
    ∃ x, normNewlines (a ++ ['\n']) = x ++ ['\n'] := by
  suffices h : ∀ (n : Nat) (a : List Char), a.length ≤ n →
      ∃ x, normNewlines (a ++ ['\n']) = x ++ ['\n'] from h a.length a le_rfl
  intro n
  induction n with
  | zero =>
    intro a ha
    rw [List.length_eq_zero.mp (Nat.le_zero.mp ha)]
    exact ⟨[], by simp [normNewlines]⟩
  | succ n ih =>
    intro a ha
    match a with
    | [] => exact ⟨[], by simp [normNewlines]⟩
    | c :: a2 =>
      by_cases hc : c = '\r'
      · subst hc
        match a2 with
        | [] => exact ⟨[], by simp [normNewlines_cons_cr_lf, normNewlines]⟩
        | c2 :: a3 =>
          by_cases hc2 : c2 = '\n'
          · subst hc2
            obtain ⟨x, hx⟩ := ih a3 (by simp at ha; omega)
            refine ⟨'\n' :: x, ?_⟩
            simp only [List.cons_append]
            rw [normNewlines_cons_cr_lf, hx]
          · have h2 : ¬('\r' = '\r' ∧ (c2 :: (a3 ++ ['\n'])).head? = some '\n') := by
              intro hcon; exact hc2 (Option.some_injective _ hcon.2)
            obtain ⟨x, hx⟩ := ih (c2 :: a3) (by simp at ha ⊢; omega)
            simp only [List.cons_append] at hx
            refine ⟨'\r' :: x, ?_⟩
            simp only [List.cons_append]
            rw [normNewlines_cons_of_ne _ h2, hx]
      · have h2 : ¬(c = '\r' ∧ (a2 ++ ['\n']).head? = some '\n') := fun hcon => hc hcon.1
        obtain ⟨x, hx⟩ := ih a2 (by simp at ha; omega)
        refine ⟨c :: x, ?_⟩
        simp only [List.cons_append]
        rw [normNewlines_cons_of_ne _ h2, hx]

theorem normNewlines_no_cr {s : List Char} (h : '\r' ∉ s) : normNewlines s = s := by
  induction s with
  | nil => rfl
  | cons c rest ih =>
    have hc : ¬(c = '\r' ∧ rest.head? = some '\n') := by
      intro hcon
      exact h (hcon.1 ▸ List.mem_cons_self c rest)
    rw [normNewlines_cons_of_ne _ hc, ih (fun hm => h (List.mem_cons_of_mem c hm))]

theorem splitlinesGo_append_newline (x : List Char) :
    ∀ (cur : List Char) (y : List Char),
      splitlinesGo (x ++ '\n' :: y) cur =
        splitlinesGo (x ++ ['\n']) cur ++
          (if y.isEmpty then [] else splitlinesGo y []) := by
  induction x with
  | nil =>
    intro cur y
    match y with
    | [] => simp [splitlinesGo]
    | d :: y2 => simp [splitlinesGo, isLineBreak]
  | cons c x2 ih =>
    intro cur y
    by_cases hc : isLineBreak c = true
    · have hne1 : (x2 ++ '\n' :: y).isEmpty = false := by
        cases x2 <;> simp
      have hne2 : (x2 ++ ['\n']).isEmpty = false := by
        cases x2 <;> simp
      simp only [List.cons_append, splitlinesGo, List.append_eq, hc, if_true, hne1, hne2,
        Bool.false_eq_true, if_false]
      rw [ih [] y]
    · simp only [List.cons_append, splitlinesGo, List.append_eq, hc, if_false,
        Bool.false_eq_true]
      exact ih (c :: cur) y

theorem isEmpty_normNewlines (s : List Char) :
    (normNewlines s).isEmpty = s.isEmpty := by
  cases s with
  | nil => rfl
  | cons c rest => exact List.isEmpty_eq_false.mpr normNewlines_ne_nil

theorem splitlines_append_newline (a b : List Char) :
    splitlines (a ++ '\n' :: b) = splitlines (a ++ ['\n']) ++ splitlines b := by
  obtain ⟨x, hx⟩ := normNewlines_append_newline_ends a
  have h1 : (a ++ '\n' :: b).isEmpty = false := by cases a <;> simp
  have h2 : (a ++ ['\n']).isEmpty = false := by cases a <;> simp
  unfold splitlines
  rw [h1, h2]
  simp only [Bool.false_eq_true, if_false]
  rw [normNewlines_append_newline a b, hx, List.append_assoc, List.singleton_append,
    splitlinesGo_append_newline x [] (normNewlines b), ← hx, isEmpty_normNewlines]

theorem splitlinesGo_no_break {s : List Char} (h : ∀ c ∈ s, isLineBreak c = false) :
    ∀ cur, splitlinesGo s cur = [cur.reverse ++ s] := by
  induction s with
  | nil => intro cur; simp [splitlinesGo]
  | cons c rest ih =>
    intro cur
    have hc : isLineBreak c = false := h c (List.mem_cons_self c rest)
    simp only [splitlinesGo, hc, Bool.false_eq_true, if_false]
    rw [ih (fun d hd => h d (List.mem_cons_of_mem c hd)) (c :: cur)]
    simp

theorem splitlinesGo_no_break_newline {s : List Char}
    (h : ∀ c ∈ s, isLineBreak c = false) :
    ∀ cur, splitlinesGo (s ++ ['\n']) cur = [cur.reverse ++ s] := by
  have hlf : isLineBreak '\n' = true := by decide
  induction s with
  | nil => intro cur; simp [splitlinesGo, hlf]
  | cons c rest ih =>
    intro cur
    have hc : isLineBreak c = false := h c (List.mem_cons_self c rest)
    simp only [List.cons_append, splitlinesGo, List.append_eq, hc, Bool.false_eq_true,
      if_false]
    rw [ih (fun d hd => h d (List.mem_cons_of_mem c hd)) (c :: cur)]
    simp

theorem no_break_no_cr {s : List Char} (h : ∀ c ∈ s, isLineBreak c = false) :
    '\r' ∉ s := by
  intro hm
  have := h '\r' hm
  simp [isLineBreak] at this

theorem splitlines_no_break {s : List Char} (hne : s ≠ [])
    (h : ∀ c ∈ s, isLineBreak c = false) : splitlines s = [s] := by
  unfold splitlines
  rw [List.isEmpty_eq_false.mpr hne]
  simp only [Bool.false_eq_true, if_false]
  rw [normNewlines_no_cr (no_break_no_cr h), splitlinesGo_no_break h []]
  simp

theorem splitlines_no_break_newline {s : List Char}
    (h : ∀ c ∈ s, isLineBreak c = false) : splitlines (s ++ ['\n']) = [s] := by
  unfold splitlines
  have hne : (s ++ ['\n']).isEmpty = false := by cases s <;> simp
  rw [hne]
  simp only [Bool.false_eq_true, if_false]
  have hcr : '\r' ∉ s ++ ['\n'] := by
    intro hm
    rcases List.mem_append.mp hm with hm1 | hm1
    · exact no_break_no_cr h hm1
    · simp at hm1
  rw [normNewlines_no_cr hcr, splitlinesGo_no_break_newline h []]
  simp

/-- `splitlines` inverts `"\n".join` on break-free lines whose final line is
nonempty. -/
theorem splitlines_pyJoin : ∀ (ts : List (List Char)),
    (∀ t ∈ ts, ∀ c ∈ t, isLineBreak c = false) →
    (∀ l, ts.getLast? = some l → l ≠ []) →
    splitlines (pyJoin ['\n'] ts) = ts := by
  intro ts
  induction ts with
  | nil => intro _ _; rfl
  | cons t ts2 ih =>
    intro hnb hlast
    match ts2 with
    | [] =>
      have ht : t ≠ [] := hlast t (by simp)
      have := splitlines_no_break ht (hnb t (by simp))
      simpa [pyJoin] using this
    | t2 :: ts3 =>
      show splitlines (t ++ ['\n'] ++ pyJoin ['\n'] (t2 :: ts3)) = t :: t2 :: ts3
      rw [List.append_assoc, List.singleton_append, splitlines_append_newline,
        splitlines_no_break_newline (hnb t (by simp)),
        ih (fun u hu => hnb u (by simp [hu]))
          (fun l hl => hlast l (by rw [List.getLast?_cons_cons]; exact hl))]
      rfl

theorem splitlinesGo_mem_no_break :
    ∀ (s cur : List Char), (∀ c ∈ cur, isLineBreak c = false) →
      ∀ l ∈ splitlinesGo s cur, ∀ c ∈ l, isLineBreak c = false := by
  intro s
  induction s with
  | nil =>
    intro cur hcur l hl c hc
    simp only [splitlinesGo, List.mem_singleton] at hl
    subst hl
    exact hcur c (List.mem_reverse.mp hc)
  | cons d rest ih =>
    intro cur hcur l hl c hc
    by_cases hd : isLineBreak d = true
    · simp only [splitlinesGo, hd, if_true] at hl
      by_cases hre : rest.isEmpty
      · rw [if_pos hre] at hl
        simp only [List.mem_singleton] at hl
        subst hl
        exact hcur c (List.mem_reverse.mp hc)
      · rw [if_neg hre] at hl
        rcases List.mem_cons.mp hl with h1 | h1
        · subst h1
          exact hcur c (List.mem_reverse.mp hc)
        · exact ih [] (by simp) l h1 c hc
    · simp only [splitlinesGo, hd, Bool.false_eq_true, if_false] at hl
      refine ih (d :: cur) ?_ l hl c hc
      intro e he
      rcases List.mem_cons.mp he with h1 | h1
      · subst h1
        exact Bool.not_eq_true _ ▸ (Bool.eq_false_iff.mpr hd)
      · exact hcur e h1

theorem splitlines_mem_no_break {s : List Char} :
    ∀ l ∈ splitlines s, ∀ c ∈ l, isLineBreak c = false := by
  intro l hl c hc
  unfold splitlines at hl
  by_cases he : s.isEmpty
  · rw [if_pos he] at hl
    cases hl
  · rw [if_neg he] at hl
    exact splitlinesGo_mem_no_break (normNewlines s) [] (by simp) l hl c hc

theorem trailerStartFrom_succ (lines : List (List Char)) (i : Nat) :
    trailerStartFrom lines (i + 1) =
      if isTrailerShaped (lines.getD i []) then trailerStartFrom lines i else i + 1 := rfl

theorem trailerStartFrom_le (lines : List (List Char)) :
    ∀ i, trailerStartFrom lines i ≤ i := by
  intro i
  induction i with
  | zero => exact Nat.le_refl 0
  | succ i ih =>
    rw [trailerStartFrom_succ]
    by_cases h : isTrailerShaped (lines.getD i [])
    · rw [if_pos h]; exact Nat.le_succ_of_le ih
    · rw [if_neg h]

theorem trailerStartFrom_prefix_agree (A B : List (List Char)) :
    ∀ i, i ≤ A.length → trailerStartFrom (A ++ B) i = trailerStartFrom A i := by
  intro i
  induction i with
  | zero => intro _; rfl
  | succ i ih =>
    intro hi
    have hgd : (A ++ B).getD i [] = A.getD i [] :=
      List.getD_append A B [] i (Nat.lt_of_succ_le hi)
    rw [trailerStartFrom_succ, trailerStartFrom_succ, hgd]
    by_cases h : isTrailerShaped (A.getD i [])
    · rw [if_pos h, if_pos h, ih (Nat.le_of_succ_le hi)]
    · rw [if_neg h, if_neg h]

theorem trailerStartFrom_append_shaped (A : List (List Char)) :
    ∀ (T : List (List Char)), (∀ t ∈ T, isTrailerShaped t = true) →
      trailerStartFrom (A ++ T) (A ++ T).length = trailerStartFrom A A.length := by
  intro T
  induction T using List.reverseRecOn with
  | nil => intro _; simp
  | append_singleton T2 t ih =>
    intro hT
    have hlen : (A ++ (T2 ++ [t])).length = (A ++ T2).length + 1 := by
      simp only [List.length_append, List.length_cons, List.length_nil]
      omega
    rw [hlen]
    have hget : (A ++ (T2 ++ [t])).getD (A ++ T2).length [] = t := by
      rw [← List.append_assoc]
      rw [List.getD_append_right (A ++ T2) [t] [] (A ++ T2).length (Nat.le_refl _)]
      simp
    rw [trailerStartFrom_succ, hget, if_pos (hT t (by simp))]
    rw [show A ++ (T2 ++ [t]) = (A ++ T2) ++ [t] from (List.append_assoc A T2 [t]).symm]
    rw [trailerStartFrom_prefix_agree (A ++ T2) [t] (A ++ T2).length (Nat.le_refl _)]
    exact ih (fun u hu => hT u (by simp [hu]))

theorem trailerStartFrom_concat_not_shaped {A : List (List Char)} {e : List Char}
    (h : isTrailerShaped e = false) :
    trailerStartFrom (A ++ [e]) (A.length + 1) = A.length + 1 := by
  have hget : (A ++ [e]).getD A.length [] = e := by
    rw [List.getD_append_right A [e] [] A.length (Nat.le_refl _)]
    simp
  rw [trailerStartFrom_succ, hget, if_neg (by rw [h]; exact Bool.false_ne_true)]

theorem trailerStartFrom_drop_shaped (lines : List (List Char)) :
    ∀ i, i ≤ lines.length →
      ∀ l ∈ (lines.take i).drop (trailerStartFrom lines i), isTrailerShaped l = true := by
  intro i
  induction i with
  | zero => intro _ l hl; simp at hl
  | succ i ih =>
    intro hi l hl
    by_cases h : isTrailerShaped (lines.getD i [])
    · have hts : trailerStartFrom lines (i + 1) = trailerStartFrom lines i := by
        rw [trailerStartFrom_succ, if_pos h]
      rw [hts, List.take_succ] at hl
      have hget : lines[i]? = some (lines.getD i []) := by
        rw [List.getD_eq_getElem lines [] (Nat.lt_of_succ_le hi)]
        exact List.getElem?_eq_getElem (Nat.lt_of_succ_le hi)
      rw [hget] at hl
      have hle : trailerStartFrom lines i ≤ (lines.take i).length := by
        rw [List.length_take]
        have := trailerStartFrom_le lines i
        omega
      rw [List.drop_append_of_le_length hle] at hl
      rcases List.mem_append.mp hl with h1 | h1
      · exact ih (Nat.le_of_succ_le hi) l h1
      · simp only [Option.toList_some, List.mem_singleton] at h1
        subst h1
        exact h
    · have hts : trailerStartFrom lines (i + 1) = i + 1 := by
        rw [trailerStartFrom_succ, if_neg h]
      rw [hts] at hl
      rw [List.drop_eq_nil_of_le (by rw [List.length_take]; exact Nat.min_le_left _ _)] at hl
      cases hl

/-- Every line of the trailer block of a description is trailer-shaped. -/
theorem trailerBlock_shaped (s : List Char) :
    ∀ l ∈ trailerBlock s, isTrailerShaped l = true := by
  intro l hl
  unfold trailerBlock trailerStart at hl
  have := trailerStartFrom_drop_shaped (descLines s) (descLines s).length (Nat.le_refl _)
  rw [List.take_length] at this
  exact this l hl

/-! ## Character-class facts -/

theorem alnum_not_space {c : Char} (h : isAlnumAscii c = true) : pyIsSpace c = false := by
  rw [Bool.eq_false_iff]
  intro hsp
  simp only [isAlnumAscii, Bool.or_eq_true, Bool.and_eq_true, decide_eq_true_eq] at h
  simp only [pyIsSpace, Bool.or_eq_true, Bool.and_eq_true, decide_eq_true_eq] at hsp
  omega

theorem break_is_space {c : Char} (h : isLineBreak c = true) : pyIsSpace c = true := by
  simp only [isLineBreak, Bool.or_eq_true, decide_eq_true_eq] at h
  simp only [pyIsSpace, Bool.or_eq_true, Bool.and_eq_true, decide_eq_true_eq]
  omega

theorem not_space_not_break {c : Char} (h : pyIsSpace c = false) : isLineBreak c = false := by
  cases hb : isLineBreak c
  · rfl
  · rw [break_is_space hb] at h
    cases h

theorem keyChar_not_break {c : Char} (h : (isAlnumAscii c || c = '-') = true) :
    isLineBreak c = false := by
  rw [Bool.eq_false_iff]
  intro hbr
  simp only [Bool.or_eq_true, decide_eq_true_eq] at h
  simp only [isLineBreak, Bool.or_eq_true, decide_eq_true_eq] at hbr
  rcases h with h | h
  · simp only [isAlnumAscii, Bool.or_eq_true, Bool.and_eq_true, decide_eq_true_eq] at h
    omega
  · subst h
    simp at hbr

/-! ## Well-formed trailer keys and values -/

/-- The key matches the trailer-line pattern `[A-Za-z0-9][A-Za-z0-9-]*`. -/
def isTrailerKeyChars : List Char → Prop
  | [] => False
  | c :: rest => isAlnumAscii c = true ∧ ∀ d ∈ rest, (isAlnumAscii d || d = '-') = true

/-- The value is a single line whose last character is not whitespace. -/
def isCleanValue (v : List Char) : Prop :=
  (∀ c ∈ v, isLineBreak c = false) ∧ ∃ v0 c, v = v0 ++ [c] ∧ pyIsSpace c = false

theorem key_not_break {k : List Char} (hk : isTrailerKeyChars k) :
    ∀ c ∈ k, isLineBreak c = false := by
  match k with
  | [] => exact absurd hk (by simp [isTrailerKeyChars])
  | c :: rest =>
    intro d hd
    rcases List.mem_cons.mp hd with h | h
    · subst h
      exact keyChar_not_break (by rw [hk.1]; rfl)
    · exact keyChar_not_break (hk.2 d h)

theorem newTrailerLine_shaped {k v : List Char} (hk : isTrailerKeyChars k)
    (hv : isCleanValue v) : isTrailerShaped (k ++ ':' :: ' ' :: v) = true := by
  match k with
  | [] => exact absurd hk (by simp [isTrailerKeyChars])
  | kc :: krest =>
    obtain ⟨v0, c, hv0, hc⟩ := hv.2
    have hstrip : pyStrip ((kc :: krest) ++ ':' :: ' ' :: v) =
        kc :: (krest ++ ':' :: ' ' :: v) := by
      unfold pyStrip
      rw [show (kc :: krest) ++ ':' :: ' ' :: v =
        (kc :: (krest ++ ':' :: ' ' :: v0)) ++ [c] by simp [hv0]]
      rw [pyRstrip_eq_self_of_last hc]
      rw [show (kc :: (krest ++ ':' :: ' ' :: v0)) ++ [c] =
        kc :: ((krest ++ ':' :: ' ' :: v0) ++ [c]) from rfl]
      rw [pyLstrip_eq_self_of_head (alnum_not_space hk.1)]
      simp [hv0]
    have hdrop : (krest ++ ':' :: ' ' :: v).dropWhile
        (fun d => isAlnumAscii d || d = '-') = ':' :: ' ' :: v := by
      rw [dropWhile_append_of_forall krest (':' :: ' ' :: v) hk.2]
      rw [List.dropWhile_cons_of_neg (by decide)]
    unfold isTrailerShaped
    rw [hstrip]
    show (isAlnumAscii kc &&
      (match (krest ++ ':' :: ' ' :: v).dropWhile (fun d => isAlnumAscii d || d = '-') with
       | ':' :: _ => true
       | _ => false)) = true
    rw [hdrop, hk.1]
    rfl

/-! ## `pyJoin` facts -/

theorem pyJoin_cons_cons (sep x y : List Char) (rest : List (List Char)) :
    pyJoin sep (x :: y :: rest) = x ++ sep ++ pyJoin sep (y :: rest) := rfl

theorem pyJoin_concat_ends (sep : List Char) :
    ∀ (xs : List (List Char)) (a : List Char), ∃ y, pyJoin sep (xs ++ [a]) = y ++ a := by
  intro xs
  induction xs with
  | nil => intro a; exact ⟨[], rfl⟩
  | cons x xs2 ih =>
    intro a
    match xs2 with
    | [] => exact ⟨x ++ sep, rfl⟩
    | x2 :: xs3 =>
      obtain ⟨y, hy⟩ := ih a
      refine ⟨x ++ sep ++ y, ?_⟩
      rw [show (x :: x2 :: xs3) ++ [a] = x :: x2 :: (xs3 ++ [a]) by simp]
      rw [pyJoin_cons_cons]
      rw [show (x2 :: xs3) ++ [a] = x2 :: (xs3 ++ [a]) by simp] at hy
      rw [hy]
      simp [List.append_assoc]

/-! ## The trailer-block shape of `update_trailer` output -/

theorem isTrailerShaped_nil : isTrailerShaped [] = false := rfl

/-- Structure theorem for `update_trailer`: for a well-formed key and a
single-line value, the trailer block of the output consists of the old
trailer block with every key-matching line removed, followed by the fresh
`key: value` line. -/
theorem update_trailer_block_eq (d k v : List Char) (hk : isTrailerKeyChars k)
    (hv : isCleanValue v) :
    trailerBlock (update_trailer d k v) =
      (trailerBlock d).filter (fun l => !(lineHasKey k l)) ++ [k ++ ':' :: ' ' :: v] := by
  obtain ⟨v0, cv, hv0, hcv⟩ := hv.2
  set lines := descLines d with hlines
  set ts := trailerStartFrom lines lines.length with hts
  set kept := (lines.drop ts).filter (fun l => !(lineHasKey k l)) with hkept
  set newline : List Char := k ++ ':' :: ' ' :: v with hnewline
  have hkeptblock : kept = (trailerBlock d).filter (fun l => !(lineHasKey k l)) := rfl
  set trailers2 := kept ++ [newline] with htrailers2
  -- every candidate trailer line is break-free
  have hnb : ∀ t ∈ trailers2, ∀ c ∈ t, isLineBreak c = false := by
    intro t ht c hc
    rcases List.mem_append.mp ht with h1 | h1
    · have h2 : t ∈ lines.drop ts := List.mem_of_mem_filter h1
      have h3 : t ∈ lines := List.drop_subset ts lines h2
      exact splitlines_mem_no_break t h3 c hc
    · simp only [List.mem_singleton] at h1
      subst h1
      rw [hnewline] at hc
      rcases List.mem_append.mp hc with h2 | h2
      · exact key_not_break hk c h2
      · rcases List.mem_cons.mp h2 with h3 | h3
        · subst h3; rfl
        · rcases List.mem_cons.mp h3 with h4 | h4
          · subst h4; rfl
          · exact hv.1 c h4
  -- the final line is nonempty
  have hlast : ∀ l, trailers2.getLast? = some l → l ≠ [] := by
    intro l hl
    rw [htrailers2, List.getLast?_concat] at hl
    cases hl
    rw [hnewline, hv0]
    intro hcontra
    have : cv ∈ (k ++ ':' :: ' ' :: (v0 ++ [cv])) := by simp
    rw [hcontra] at this
    cases this
  -- splitlines recovers the trailer lines from the joined text
  have hsplit : splitlines (pyJoin ['\n'] trailers2) = trailers2 :=
    splitlines_pyJoin trailers2 hnb hlast
  -- the joined trailer text ends in a non-space character
  obtain ⟨y, hy⟩ := pyJoin_concat_ends ['\n'] kept newline
  have hjoin_shape : pyJoin ['\n'] trailers2 = (y ++ (k ++ ':' :: ' ' :: v0)) ++ [cv] := by
    rw [htrailers2, hy, hnewline, hv0]
    simp
  have htt : pyRstrip (pyJoin ['\n'] trailers2) = pyJoin ['\n'] trailers2 := by
    rw [hjoin_shape]
    exact pyRstrip_eq_self_of_last hcv
  have htt_ne : pyJoin ['\n'] trailers2 ≠ [] := by
    rw [hjoin_shape]
    simp
  -- every trailer line is trailer-shaped
  have hshaped : ∀ t ∈ trailers2, isTrailerShaped t = true := by
    intro t ht
    rcases List.mem_append.mp ht with h1 | h1
    · exact trailerBlock_shaped d t (List.mem_of_mem_filter h1)
    · simp only [List.mem_singleton] at h1
      subst h1
      exact newTrailerLine_shaped hk hv
  show trailerBlock (updateTrailerFinish lines ts k v) = kept ++ [newline]
  simp only [updateTrailerFinish]
  rw [← hkept, ← hnewline, ← htrailers2, htt]
  rcases pyRstrip_last_shape (pyJoin ['\n'] (lines.take ts)) with hbody | ⟨b0, cb, hbody, hcb⟩
  · -- empty body: output is the trailer text alone
    rw [hbody]
    rw [if_neg (by intro hcontra; exact hcontra.1 rfl)]
    rw [if_pos htt_ne]
    unfold trailerBlock trailerStart descLines
    rw [pyRstrip_append_spaces (by intro c hc; simp at hc; subst hc; rfl), htt, hsplit]
    rw [show trailers2 = [] ++ trailers2 from rfl, trailerStartFrom_append_shaped [] trailers2 hshaped]
    exact List.drop_zero _
  · -- nonempty body: output is body, blank line, trailer text
    rw [hbody]
    rw [if_pos ⟨by simp, htt_ne⟩]
    unfold trailerBlock trailerStart descLines
    have hr : (b0 ++ [cb]) ++ '\n' :: '\n' :: pyJoin ['\n'] trailers2 ++ ['\n'] =
        (((b0 ++ [cb]) ++ '\n' :: '\n' :: (y ++ (k ++ ':' :: ' ' :: v0))) ++ [cv]) ++ ['\n'] := by
      rw [hjoin_shape]
      simp
    rw [hr, pyRstrip_append_spaces (by intro c hc; simp at hc; subst hc; rfl),
      pyRstrip_eq_self_of_last hcv]
    have hX : ((b0 ++ [cb]) ++ '\n' :: '\n' :: (y ++ (k ++ ':' :: ' ' :: v0))) ++ [cv] =
        (b0 ++ [cb]) ++ '\n' :: ('\n' :: pyJoin ['\n'] trailers2) := by
      rw [hjoin_shape]
      simp
    have hsplit3 : splitlines ((b0 ++ [cb]) ++ '\n' :: ('\n' :: pyJoin ['\n'] trailers2)) =
        splitlines ((b0 ++ [cb]) ++ ['\n']) ++ ([] :: trailers2) := by
      rw [splitlines_append_newline (b0 ++ [cb]) ('\n' :: pyJoin ['\n'] trailers2)]
      congr 1
      have h2 := splitlines_append_newline [] (pyJoin ['\n'] trailers2)
      simp only [List.nil_append] at h2
      rw [h2, hsplit, show splitlines ['\n'] = [([] : List Char)] from rfl]
      rfl
    rw [hX]
    rw [hsplit3]
    set Lb := splitlines ((b0 ++ [cb]) ++ ['\n']) with hLb
    rw [show Lb ++ ([] :: trailers2) = (Lb ++ [[]]) ++ trailers2 by simp]
    rw [trailerStartFrom_append_shaped (Lb ++ [[]]) trailers2 hshaped]
    rw [show (Lb ++ [([] : List Char)]).length = Lb.length + 1 by simp]
    rw [trailerStartFrom_concat_not_shaped isTrailerShaped_nil]
    rw [List.drop_left' (by simp)]

theorem mem_pyJoin {x : Char} (sep t : List Char) :
    ∀ (ts : List (List Char)), x ∈ t → t ∈ ts → x ∈ pyJoin sep ts := by
  intro ts
  induction ts with
  | nil => intro _ h; cases h
  | cons u ts2 ih =>
    intro hx ht
    match ts2 with
    | [] =>
      rcases List.mem_cons.mp ht with h | h
      · subst h; exact hx
      · cases h
    | u2 :: ts3 =>
      rw [pyJoin_cons_cons]
      rcases List.mem_cons.mp ht with h | h
      · subst h
        exact List.mem_append.mpr (Or.inl (List.mem_append.mpr (Or.inl hx)))
      · exact List.mem_append.mpr (Or.inr (ih hx h))

/-- The `key: value` line is recognised by the removal test. -/
theorem lineHasKey_new (k v : List Char) : lineHasKey k (k ++ ':' :: ' ' :: v) = true := by
  unfold lineHasKey pyLower
  rw [List.map_append]
  rw [List.isPrefixOf_iff_prefix]
  rw [show List.map Char.toLower (':' :: ' ' :: v) =
    [':'] ++ List.map Char.toLower (' ' :: v) from rfl]
  rw [← List.append_assoc]
  exact List.prefix_append _ _

/-! ## Claims C1, C7 and C10 -/

/-- C1 (as stated) is false: a key that does not match the trailer pattern,
here `"a b"`, never produces a trailer-shaped line, so the final trailer
block contains no line with that key at all (let alone exactly one). -/
theorem c1_counterexample :
    (trailerBlock (update_trailer (update_trailer []
        ['a', ' ', 'b'] ['x']) ['a', ' ', 'b'] ['y'])).filter
      (fun l => lineHasKey ['a', ' ', 'b'] l) = [] := by decide

/-- C1 (amended): for a key matching the trailer-key pattern and a
single-line value ending in non-whitespace, applying the editor twice
leaves exactly one line with that key — the fresh `key: v2` line — in the
final position of the trailer block, for any description and first value. -/
theorem c1_trailer_idempotence (D k v1 v2 : List Char) (hk : isTrailerKeyChars k)
    (hv2 : isCleanValue v2) :
    (trailerBlock (update_trailer (update_trailer D k v1) k v2)).filter
        (fun l => lineHasKey k l) = [k ++ ':' :: ' ' :: v2] ∧
    (trailerBlock (update_trailer (update_trailer D k v1) k v2)).getLast? =
      some (k ++ ':' :: ' ' :: v2) := by
  have h := update_trailer_block_eq (update_trailer D k v1) k v2 hk hv2
  constructor
  · rw [h, List.filter_append]
    have h1 : ((trailerBlock (update_trailer D k v1)).filter
        (fun l => !(lineHasKey k l))).filter (fun l => lineHasKey k l) = [] := by
      rw [List.filter_eq_nil_iff]
      intro a ha
      have := List.of_mem_filter ha
      simp only [Bool.not_eq_eq_eq_not, Bool.not_true] at this
      simp [this]
    rw [h1]
    simp [lineHasKey_new]
  · rw [h, List.getLast?_concat]

theorem c1_witness :
    (trailerBlock (update_trailer (update_trailer ['h', 'i']
        ['K', 'e', 'y'] ['a']) ['K', 'e', 'y'] ['b'])).filter
        (fun l => lineHasKey ['K', 'e', 'y'] l) = [['K', 'e', 'y'] ++ ':' :: ' ' :: ['b']] ∧
    (trailerBlock (update_trailer (update_trailer ['h', 'i']
        ['K', 'e', 'y'] ['a']) ['K', 'e', 'y'] ['b'])).getLast? =
      some (['K', 'e', 'y'] ++ ':' :: ' ' :: ['b']) :=
  c1_trailer_idempotence ['h', 'i'] ['K', 'e', 'y'] ['a'] ['b']
    ⟨by decide, by decide⟩ ⟨by decide, [], 'b', rfl, by decide⟩

/-- C10: `update_trailer` always returns a string of the form
`s ++ [c, '\n']` with `c` non-whitespace — non-empty, ending in exactly one
newline, with no trailing blank line before it. -/
theorem c10_output_shape (d k v : List Char) :
    ∃ s c, update_trailer d k v = s ++ [c, '\n'] ∧ pyIsSpace c = false := by
  unfold update_trailer
  simp only [updateTrailerFinish]
  set lines := descLines d
  set ts := trailerStartFrom lines lines.length
  set kept := (lines.drop ts).filter (fun line => !(lineHasKey k line)) with hkept
  set trailers2 := kept ++ [k ++ ':' :: ' ' :: v] with htrailers2
  have hmem : ':' ∈ pyJoin ['\n'] trailers2 :=
    mem_pyJoin ['\n'] (k ++ ':' :: ' ' :: v) trailers2 (by simp)
      (by rw [htrailers2]; exact List.mem_append.mpr (Or.inr (by simp)))
  have htne : pyRstrip (pyJoin ['\n'] trailers2) ≠ [] :=
    pyRstrip_ne_nil_of_mem hmem (by decide)
  rcases pyRstrip_last_shape (pyJoin ['\n'] trailers2) with h0 | ⟨t0, c, ht0, hc⟩
  · exact absurd h0 htne
  · rw [ht0]
    by_cases hb : pyRstrip (pyJoin ['\n'] (lines.take ts)) = []
    · rw [hb]
      rw [if_neg (fun hcon => hcon.1 rfl)]
      rw [if_pos (by rw [ht0] at htne; exact htne)]
      exact ⟨t0, c, by simp, hc⟩
    · rw [if_pos ⟨hb, by rw [ht0] at htne; exact htne⟩]
      refine ⟨pyRstrip (pyJoin ['\n'] (lines.take ts)) ++ '\n' :: '\n' :: t0, c, ?_, hc⟩
      simp

/-- C7: the checked editor (indexing surfaced in `Option`) never fails and
agrees with the total one: no input can make `update_trailer` raise. -/
theorem c7_total (d k v : List Char) :
    updateTrailerChecked d k v = some (update_trailer d k v) := by
  have hgen : ∀ (lines : List (List Char)) (i : Nat), i ≤ lines.length →
      trailerStartFromChecked lines i = some (trailerStartFrom lines i) := by
    intro lines i
    induction i with
    | zero => intro _; rfl
    | succ i ih =>
      intro hi
      have hget : lines.get? i = some (lines.getD i []) := by
        rw [List.get?_eq_getElem?, List.getD_eq_getElem lines [] (Nat.lt_of_succ_le hi)]
        exact List.getElem?_eq_getElem (Nat.lt_of_succ_le hi)
      unfold trailerStartFromChecked
      rw [hget]
      show (if isTrailerShaped (lines.getD i []) = true then trailerStartFromChecked lines i
        else some (i + 1)) = some (trailerStartFrom lines (i + 1))
      by_cases h : isTrailerShaped (lines.getD i [])
      · rw [if_pos h, ih (Nat.le_of_succ_le hi), trailerStartFrom_succ, if_pos h]
      · rw [if_neg h, trailerStartFrom_succ, if_neg h]
  show Option.map (fun ts => updateTrailerFinish (descLines d) ts k v)
      (trailerStartFromChecked (descLines d) (descLines d).length) =
    some (updateTrailerFinish (descLines d)
      (trailerStartFrom (descLines d) (descLines d).length) k v)
  rw [hgen (descLines d) (descLines d).length (Nat.le_refl _)]
  rfl

/-! ## Decimal digits and fixed-point formatting

Python floats are modelled as exact rationals; `f"{v:.Nf}"` is modelled as
correct rounding to `N` decimal places with ties to even (how CPython
renders the nearest double). -/

def natDigitsAux : Nat → Nat → List Char
  | 0, _ => []
  | fuel + 1, n =>
    if n < 10 then [Char.ofNat (48 + n)]
    else natDigitsAux fuel (n / 10) ++ [Char.ofNat (48 + n % 10)]

/-- The decimal digits of `n` (most significant first); the fuel is ample.  -/
def natDigits (n : Nat) : List Char := natDigitsAux (n + 1) n

def digitVal (c : Char) : Nat := c.toNat - 48

def digitsToNat (ds : List Char) : Nat := ds.foldl (fun a c => 10 * a + digitVal c) 0

/-- Round half to even.  The fractional part `q - ⌊q⌋` is compared with
`1/2` through the integer quantity `2*num - 2*⌊q⌋*den` versus `den`, so the
definition evaluates by kernel reduction. -/
def rhe (q : ℚ) : ℤ :=
  let f := q.floor
  let r2 := 2 * q.num - 2 * f * q.den
  if r2 < (q.den : ℤ) then f
  else if (q.den : ℤ) < r2 then f + 1
  else if f % 2 = 0 then f else f + 1

/-- `abs`, written with an executable conditional so that terms reduce. -/
def qabs (q : ℚ) : ℚ := if q < 0 then -q else q

/-- Python `f"{q:.{prec}f}"` (no forced sign). -/
def fmtFixed (q : ℚ) (prec : Nat) : List Char :=
  let n := (rhe (qabs q * 10 ^ prec)).toNat
  let sign : List Char := if q < 0 then ['-'] else []
  let fracDigits := natDigits (n % 10 ^ prec)
  let fp : List Char :=
    if prec = 0 then []
    else '.' :: (List.replicate (prec - fracDigits.length) '0' ++ fracDigits)
  sign ++ natDigits (n / 10 ^ prec) ++ fp

/-- Python `f"{q:+.{prec}f}"` (always-signed) for a double whose zero, if
any, is positive.  An exact rational carries no sign bit, so the one case
where CPython's float differs — an IEEE `-0.0` result, printed `-0.0` — is
modelled at the call site that can produce it (`pct_delta`). -/
def fmtSignedFixed (q : ℚ) (prec : Nat) : List Char :=
  if q < 0 then fmtFixed q prec else '+' :: fmtFixed q prec

/-! ## Unit parsing (`parse_duration` / `parse_bytes`)

The regular expression `([-+]?\d*\.?\d+)\s*(unit...)` is modelled by a
maximal-munch scanner: since `.` and `:`-like separators never start a unit
and digits never do either, greedy matching with this particular pattern
needs no backtracking (any shorter number candidate is followed by a digit
or a dot, which cannot match `\s*(unit)`).  Digits are modelled as the
ASCII `0`-`9` that BenchmarkDotNet reports emit; Python's `\d` and `float`
additionally accept the other Unicode decimal digits, which are outside this
model's alphabet, so results proved here about `some`-valued parses are
faithful while `none` cases are so only over ASCII inputs. -/

/-- The optional sign `[-+]?`. -/
def scanSign : List Char → ℚ × List Char
  | '+' :: t => (1, t)
  | '-' :: t => (-1, t)
  | cs => (1, cs)

/-- After the integer digits `d1`, an optional fractional part `\.?\d+`:
a dot counts only when at least one digit follows it (otherwise the number
is just `d1`, and the dot is left in the remainder, where the following
`\s*(unit)` can never match — exactly the regex's failed backtracking). -/
def scanFrac (sgn : ℚ) (d1 cs2 : List Char) : Option (ℚ × List Char) :=
  match cs2 with
  | '.' :: cs3 =>
    let d2 := cs3.takeWhile isAsciiDigit
    let cs4 := cs3.dropWhile isAsciiDigit
    if d2.isEmpty then
      if d1.isEmpty then none
      else some (sgn * (digitsToNat d1 : ℚ), cs2)
    else some (sgn * ((digitsToNat (d1 ++ d2) : ℚ) / 10 ^ d2.length), cs4)
  | _ => if d1.isEmpty then none else some (sgn * (digitsToNat d1 : ℚ), cs2)

/-- The leading number `[-+]?\d*\.?\d+` by maximal munch. -/
def scanNumber (cs : List Char) : Option (ℚ × List Char) :=
  let sgn := (scanSign cs).1
  let cs1 := (scanSign cs).2
  let d1 := cs1.takeWhile isAsciiDigit
  let cs2 := cs1.dropWhile isAsciiDigit
  scanFrac sgn d1 cs2

/-- `µ` and `μ` are both replaced by `u`. -/
def microToU (c : Char) : Char := if c = 'µ' || c = 'μ' then 'u' else c

/-- The duration unit alternation `(ns|us|ms|s)`, case-insensitive, tried in
order, as a prefix of the remaining input. -/
def matchDurUnit (cs : List Char) : Option ℚ :=
  let lc := pyLower cs
  if ['n', 's'].isPrefixOf lc then some (1 / 10 ^ 9)
  else if ['u', 's'].isPrefixOf lc then some (1 / 10 ^ 6)
  else if ['m', 's'].isPrefixOf lc then some (1 / 10 ^ 3)
  else if ['s'].isPrefixOf lc then some 1
  else none

def parse_duration (value : List Char) : Option ℚ :=
  let v := pyStrip value
  if v.isEmpty then none
  else
    let cleaned := (v.filter (fun c => !(c == ','))).map microToU
    match scanNumber cleaned with
    | none => none
    | some (q, rest) =>
      match matchDurUnit (rest.dropWhile pyIsSpace) with
      | none => none
      | some factor => some (q * factor)

/-- The size unit alternation `(B|KB|MB)`, case-insensitive, tried in order. -/
def matchByteUnit (cs : List Char) : Option ℚ :=
  let lc := pyLower cs
  if ['b'].isPrefixOf lc then some 1
  else if ['k', 'b'].isPrefixOf lc then some 1024
  else if ['m', 'b'].isPrefixOf lc then some (1024 * 1024)
  else none

def parse_bytes (value : List Char) : Option ℚ :=
  let v := pyStrip value
  if v.isEmpty then none
  else
    let cleaned := v.filter (fun c => !(c == ','))
    match scanNumber cleaned with
    | none => none
    | some (q, rest) =>
      match matchByteUnit (rest.dropWhile pyIsSpace) with
      | none => none
      | some factor => some (q * factor)

/-! ## Formatting (`format_duration` / `format_bytes` / `pct_delta`)

`None` is the `none` case; `math.isnan` can never be true of an exact
rational, so the NaN guard is vacuous in this model. -/

def format_duration : Option ℚ → List Char
  | none => "n/a".toList
  | some seconds =>
    let abs_val := qabs seconds
    if abs_val < 1 / 10 ^ 6 then fmtFixed (seconds * 10 ^ 9) 3 ++ " ns".toList
    else if abs_val < 1 / 10 ^ 3 then fmtFixed (seconds * 10 ^ 6) 3 ++ " us".toList
    else if abs_val < 1 then fmtFixed (seconds * 10 ^ 3) 3 ++ " ms".toList
    else fmtFixed seconds 3 ++ " s".toList

def format_bytes : Option ℚ → List Char
  | none => "n/a".toList
  | some value =>
    let abs_val := qabs value
    if abs_val < 1024 then fmtFixed value 0 ++ " B".toList
    else if abs_val < 1024 * 1024 then fmtFixed (value / 1024) 1 ++ " KB".toList
    else fmtFixed (value / 1024 / 1024) 2 ++ " MB".toList

/-- `f"{(new - old) / old * 100:+.1f}%"`.  The computation is exact here,
but the program divides IEEE doubles: `new - old` is `+0.0` exactly when
`new = old`, and dividing that zero by a negative `old` yields `-0.0`
(`* 100` keeps the sign), which `:+.1f` prints as `-0.0`.  That signed-zero
case — the only observable divergence of an exact-rational delta — is
written out explicitly. -/
def pct_delta : Option ℚ → Option ℚ → List Char
  | some old, some new =>
    if old = 0 then "n/a".toList
    else
      let delta := (new - old) / old * 100
      if delta = 0 ∧ old < 0 then ('-' :: fmtFixed delta 1) ++ ['%']
      else fmtSignedFixed delta 1 ++ ['%']
  | _, _ => "n/a".toList

/-! ## Result store (`read_results`)

A CSV data row is modelled as the header-keyed string mapping produced by
`csv.DictReader` (an association list; a duplicate header keeps the last
cell).  The result mapping is modelled as the insertion sequence of
`(name, result)` pairs; `rsGet` looks up with dict semantics (the last
insertion for a name wins). -/

structure BenchmarkResult where
  mean_seconds : Option ℚ
  stddev_seconds : Option ℚ
  allocated_bytes : Option ℚ
deriving DecidableEq, Repr

def rowGet (row : List (List Char × List Char)) (key default : List Char) : List Char :=
  match (row.filter (fun p => p.1 == key)).getLast? with
  | some p => p.2
  | none => default

def isQuoteChar (c : Char) : Bool := c = '\'' || c = '"'

/-- Python `s.strip(chars)`: remove leading and trailing characters of the
set from both ends. -/
def pyStripBoth (p : Char → Bool) (s : List Char) : List Char :=
  ((s.dropWhile p).reverse.dropWhile p).reverse

/-- `row.get("Method", "").strip().strip("'\x22")` -/
def methodName (row : List (List Char × List Char)) : List Char :=
  pyStripBoth isQuoteChar (pyStrip (rowGet row ("Method".toList) []))

def rowResult (row : List (List Char × List Char)) : BenchmarkResult :=
  { mean_seconds := parse_duration (rowGet row ("Mean".toList) [])
    stddev_seconds := parse_duration (rowGet row ("StdDev".toList) [])
    allocated_bytes := parse_bytes (rowGet row ("Allocated".toList) []) }

def read_results (rows : List (List (List Char × List Char))) :
    List (List Char × BenchmarkResult) :=
  rows.map (fun row => (methodName row, rowResult row))

def rsGet (rs : List (List Char × BenchmarkResult)) (name : List Char) :
    Option BenchmarkResult :=
  ((rs.filter (fun p => p.1 == name)).getLast?).map (fun p => p.2)

/-! ### Ragged rows (`csv.DictReader`, `restval=None`)

For a data row shorter than the header, `csv.DictReader` maps the missing
trailing fieldnames to `None` (`restval`), not to a string.  The refined
row model below makes a cell `Option (List Char)`: `none` is Python's
`None`.  `row.get(key, "")` returns the stored cell — possibly `None` —
when the fieldname is present, and `""` only when the header itself lacks
the column.  `parse_duration`/`parse_bytes` begin with `value.strip()` and
the method column is `.strip()`-ed directly, so a `None` cell raises
`AttributeError` (`Except.error ()`), aborting `read_results`.  The total
string-row model above is exactly the fragment where every cell is present
(`embedRow`). -/

def rowGetE (row : List (List Char × Option (List Char))) (key dflt : List Char) :
    Option (List Char) :=
  match (row.filter (fun p => p.1 == key)).getLast? with
  | some p => p.2
  | none => some dflt

def methodNameE : Option (List Char) → Except Unit (List Char)
  | none => Except.error ()
  | some s => Except.ok (pyStripBoth isQuoteChar (pyStrip s))

def parse_durationE : Option (List Char) → Except Unit (Option ℚ)
  | none => Except.error ()
  | some s => Except.ok (parse_duration s)

def parse_bytesE : Option (List Char) → Except Unit (Option ℚ)
  | none => Except.error ()
  | some s => Except.ok (parse_bytes s)

def rowResultE (row : List (List Char × Option (List Char))) :
    Except Unit (List Char × BenchmarkResult) := do
  let method ← methodNameE (rowGetE row ("Method".toList) [])
  let mean ← parse_durationE (rowGetE row ("Mean".toList) [])
  let stddev ← parse_durationE (rowGetE row ("StdDev".toList) [])
  let alloc ← parse_bytesE (rowGetE row ("Allocated".toList) [])
  return (method, BenchmarkResult.mk mean stddev alloc)

def read_resultsE : List (List (List Char × Option (List Char))) →
    Except Unit (List (List Char × BenchmarkResult))
  | [] => Except.ok []
  | row :: rest => do
    let pr ← rowResultE row
    let tail ← read_resultsE rest
    return pr :: tail

/-- A `csv.DictReader` row with every cell present. -/
def embedRow (row : List (List Char × List Char)) :
    List (List Char × Option (List Char)) :=
  row.map (fun p => (p.1, some p.2))

/-! ## Table building (`build_table`) -/

/-- Python string `<` (code-point lexicographic). -/
def lexLt : List Char → List Char → Bool
  | [], [] => false
  | [], _ :: _ => true
  | _ :: _, [] => false
  | a :: as, b :: bs =>
    if a.toNat < b.toNat then true
    else if a.toNat = b.toNat then lexLt as bs else false

def lexLe (x y : List Char) : Bool := lexLt x y || x == y

def insertSorted (x : List Char) : List (List Char) → List (List Char)
  | [] => [x]
  | y :: ys => if lexLe x y then x :: y :: ys else y :: insertSorted x ys

def sortNames : List (List Char) → List (List Char) :=
  List.foldr insertSorted []

/-- `sorted(set(base) | set(new))`. -/
def sortedNames (base new : List (List Char × BenchmarkResult)) : List (List Char) :=
  sortNames ((base.map (fun p => p.1) ++ new.map (fun p => p.1)).dedup)

def HEADERS : List (List Char) :=
  ["Benchmark".toList, "Base Mean".toList, "New Mean".toList, "Mean Delta".toList,
   "Base Alloc".toList, "New Alloc".toList, "Alloc Delta".toList]

def rowFor (base new : List (List Char × BenchmarkResult)) (name : List Char) :
    List (List Char) :=
  let base_result := rsGet base name
  let new_result := rsGet new name
  let base_mean := base_result.bind (fun r => r.mean_seconds)
  let new_mean := new_result.bind (fun r => r.mean_seconds)
  let base_alloc := base_result.bind (fun r => r.allocated_bytes)
  let new_alloc := new_result.bind (fun r => r.allocated_bytes)
  [if name.isEmpty then "(unknown)".toList else name,
   format_duration base_mean,
   format_duration new_mean,
   pct_delta base_mean new_mean,
   format_bytes base_alloc,
   format_bytes new_alloc,
   pct_delta base_alloc new_alloc]

def tableRows (base new : List (List Char × BenchmarkResult)) :
    List (List (List Char)) :=
  HEADERS :: (sortedNames base new).map (rowFor base new)

def listMax (xs : List Nat) : Nat := xs.foldl Nat.max 0

def tableWidths (base new : List (List Char × BenchmarkResult)) : List Nat :=
  (List.range HEADERS.length).map
    (fun i => listMax ((tableRows base new).map (fun row => (row.getD i []).length)))

/-- `cell.ljust(width)`. -/
def ljust (s : List Char) (w : Nat) : List Char :=
  s ++ List.replicate (w - s.length) ' '

def renderRow (widths : List Nat) (row : List (List Char)) : List Char :=
  pyJoin ("  ".toList) (List.zipWith ljust row widths)

def buildLines (base new : List (List Char × BenchmarkResult)) : List (List Char) :=
  match tableRows base new with
  | [] => []
  | h :: rest =>
    let hline := renderRow (tableWidths base new) h
    hline :: List.replicate hline.length '-' :: rest.map (renderRow (tableWidths base new))

def build_table (base new : List (List Char × BenchmarkResult)) : List Char :=
  pyJoin ['\n'] (buildLines base new)

/-! ## The comparison command-line tool (`main`) -/

/-- The file-system and report-reading collaborators of `main`. -/
structure CmpEnv where
  isFile : List Char → Bool
  expandUser : List Char → List Char
  readReport : List Char → List (List (List Char × List Char))

def usageText : List Char :=
  "Compare two BenchmarkDotNet CSV reports and print mean + allocation deltas.\nUsage: python3 tools/compare_benchmarks.py base.csv new.csv".toList

/-- `main()`: returns the exit code and the lines printed to stdout. -/
def mainCmp (env : CmpEnv) (argv : List (List Char)) : Nat × List (List Char) :=
  if argv.length ≠ 3 then (1, [usageText])
  else
    let base_path := env.expandUser (argv.getD 1 [])
    let new_path := env.expandUser (argv.getD 2 [])
    if !env.isFile base_path then (1, ["Base file not found: ".toList ++ base_path])
    else if !env.isFile new_path then (1, ["New file not found: ".toList ++ new_path])
    else
      (0, [build_table (read_results (env.readReport base_path))
             (read_results (env.readReport new_path))])

/-! ## The orchestrator (`jj_benchmark_trailer.py`)

`checkout_parent_and_benchmark` is modelled as a trace semantics over the
external collaborators: each external command is an event paired with its
success; Python exceptions are `Except`, and `try/finally` runs the cleanup
on every path (a failing cleanup replaces the in-flight error, as in
Python). -/

inductive BenchEv where
  | jjNew
  | benchRun
  | jjUndo
deriving DecidableEq, Repr

inductive BenchErr where
  | cmdFailed (cmd : BenchEv)
  | outputMissing
deriving DecidableEq, Repr

/-- Outcomes of the external commands for one orchestrator run. -/
structure BenchOracle where
  newOk : Bool
  benchOk : Bool
  csvExists : Bool
  undoOk : Bool

/-- `run_benchmark`: run the harness (raising on non-zero exit), then check
that the canonical CSV exists. -/
def run_benchmark (o : BenchOracle) : List (BenchEv × Bool) × Except BenchErr Unit :=
  if o.benchOk then
    if o.csvExists then ([(.benchRun, true)], .ok ())
    else ([(.benchRun, true)], .error .outputMissing)
  else ([(.benchRun, false)], .error (.cmdFailed .benchRun))

/-- `checkout_parent_and_benchmark`: `jj new @-`, then a `try/finally` whose
body is `run_benchmark` and whose cleanup is `jj undo`. -/
def checkout_parent_and_benchmark (o : BenchOracle) :
    List (BenchEv × Bool) × Except BenchErr Unit :=
  if !o.newOk then ([(.jjNew, false)], .error (.cmdFailed .jjNew))
  else
    let body := run_benchmark o
    if o.undoOk then ((.jjNew, true) :: body.1 ++ [(.jjUndo, true)], body.2)
    else ((.jjNew, true) :: body.1 ++ [(.jjUndo, false)], .error (.cmdFailed .jjUndo))

inductive WorkingCopy where
  | original
  | parent
deriving DecidableEq, Repr

/-- Effect of a (successful) command on the working copy. -/
def wcStep (s : WorkingCopy) : BenchEv × Bool → WorkingCopy
  | (.jjNew, true) => .parent
  | (.jjUndo, true) => .original
  | _ => s

def wcAfter (tr : List (BenchEv × Bool)) : WorkingCopy :=
  tr.foldl wcStep .original

/-! ## Claim C4: `compare(A, A)` -/

/-- C4 (as stated) is false: a shared key whose result has a null mean and
null allocation yields `"n/a"` deltas in `compare(A, A)`, not `"+0.0%"`. -/
theorem c4_counterexample :
    (rsGet [(['x'], BenchmarkResult.mk none none none)] ['x']).isSome = true ∧
    (rowFor [(['x'], BenchmarkResult.mk none none none)]
        [(['x'], BenchmarkResult.mk none none none)] ['x']).getD 3 [] = "n/a".toList ∧
    "n/a".toList ≠ "+0.0%".toList := by decide

/-- C4 (amended): in `compare(A, A)` each shared key's mean (resp.
allocation) delta cell is `"+0.0%"` when the stored value is positive,
`"-0.0%"` when it is negative (the program divides the IEEE zero `new - old`
by a negative base, giving `-0.0`), and `"n/a"` when it is null or zero; no
key is present in only one of the two sets. -/
theorem c4_compare_self (A : List (List Char × BenchmarkResult)) (name : List Char)
    (r : BenchmarkResult) (h : rsGet A name = some r) :
    (rowFor A A name).getD 3 [] =
      (match r.mean_seconds with
       | some q => if q = 0 then "n/a".toList
         else if q < 0 then "-0.0%".toList else "+0.0%".toList
       | none => "n/a".toList) ∧
    (rowFor A A name).getD 6 [] =
      (match r.allocated_bytes with
       | some q => if q = 0 then "n/a".toList
         else if q < 0 then "-0.0%".toList else "+0.0%".toList
       | none => "n/a".toList) := by
  have hself : ∀ q : ℚ, q ≠ 0 → (q - q) / q * 100 = 0 := by
    intro q _
    rw [sub_self, zero_div, zero_mul]
  have hfX : fmtFixed 0 1 = ['0', '.', '0'] := by
    have hq : qabs (0 : ℚ) * 10 ^ (1 : ℕ) = 0 := by
      have h1 : qabs (0 : ℚ) = 0 := by simp [qabs]
      rw [h1, zero_mul]
    have h0 : rhe 0 = 0 := by
      have hf : (0 : ℚ).floor = 0 := rfl
      simp [rhe, hf]
    simp only [fmtFixed, hq, h0]
    decide
  have hplus : fmtSignedFixed 0 1 ++ ['%'] = "+0.0%".toList := by
    simp only [fmtSignedFixed, if_neg (lt_irrefl (0 : ℚ)), hfX]
    decide
  have hminus : ('-' :: fmtFixed 0 1) ++ ['%'] = "-0.0%".toList := by
    rw [hfX]
    decide
  have hcell : ∀ o : Option ℚ, pct_delta o o =
      (match o with
       | some q => if q = 0 then "n/a".toList
         else if q < 0 then "-0.0%".toList else "+0.0%".toList
       | none => "n/a".toList) := by
    intro o
    cases o with
    | none => rfl
    | some q =>
      by_cases hq : q = 0
      · simp [pct_delta, hq]
      · by_cases hlt : q < 0
        · simp only [pct_delta, if_neg hq, hself q hq, hminus, if_pos hlt]
          rw [if_pos (⟨trivial, hlt⟩ : True ∧ q < 0)]
        · simp only [pct_delta, if_neg hq, hself q hq, hplus, if_neg hlt]
          rw [if_neg (fun hc : True ∧ q < 0 => hlt hc.2)]
  simp only [rowFor, h, Option.bind_some]
  exact ⟨hcell r.mean_seconds, hcell r.allocated_bytes⟩

theorem c4_witness :
    (rowFor [(['x'], BenchmarkResult.mk (some 1) none (some (-2)))]
        [(['x'], BenchmarkResult.mk (some 1) none (some (-2)))] ['x']).getD 3 [] =
      (match (some (1 : ℚ) : Option ℚ) with
       | some q => if q = 0 then "n/a".toList
         else if q < 0 then "-0.0%".toList else "+0.0%".toList
       | none => "n/a".toList) ∧
    (rowFor [(['x'], BenchmarkResult.mk (some 1) none (some (-2)))]
        [(['x'], BenchmarkResult.mk (some 1) none (some (-2)))] ['x']).getD 6 [] =
      (match (some (-2 : ℚ) : Option ℚ) with
       | some q => if q = 0 then "n/a".toList
         else if q < 0 then "-0.0%".toList else "+0.0%".toList
       | none => "n/a".toList) :=
  c4_compare_self [(['x'], BenchmarkResult.mk (some 1) none (some (-2)))] ['x']
    (BenchmarkResult.mk (some 1) none (some (-2))) (by decide)

/-! ## Claim C2: restore before surfacing failure -/

/-- C2: whenever the switch to the parent succeeded (and the restore
command itself is functional), the trace ends with a successful `jj undo`,
the working copy is back in its original state, and the surfaced outcome is
exactly the parent benchmark run's outcome — a failure is re-raised only
after restoration. -/
theorem c2_restore_before_failure (o : BenchOracle) (h1 : o.newOk = true)
    (h2 : o.undoOk = true) :
    wcAfter (checkout_parent_and_benchmark o).1 = WorkingCopy.original ∧
    (checkout_parent_and_benchmark o).1.getLast? = some (BenchEv.jjUndo, true) ∧
    (checkout_parent_and_benchmark o).2 = (run_benchmark o).2 := by
  rcases o with ⟨n, b, c, u⟩
  cases h1
  cases h2
  cases b <;> cases c <;> exact ⟨by decide, by decide, rfl⟩

theorem c2_witness :
    wcAfter (checkout_parent_and_benchmark ⟨true, false, true, true⟩).1 =
      WorkingCopy.original ∧
    (checkout_parent_and_benchmark ⟨true, false, true, true⟩).1.getLast? =
      some (BenchEv.jjUndo, true) ∧
    (checkout_parent_and_benchmark ⟨true, false, true, true⟩).2 =
      (run_benchmark ⟨true, false, true, true⟩).2 :=
  c2_restore_before_failure ⟨true, false, true, true⟩ (by decide) (by decide)

/-! ## Claim C8: exit codes of the comparison tool -/

/-- C8: `main` exits 0 exactly when given two existing report paths, in
which case it prints the rendered table; otherwise it exits 1 after
printing a single non-empty usage or error message. -/
theorem c8_exit_codes (env : CmpEnv) (argv : List (List Char)) :
    ((mainCmp env argv).1 = 0 ↔ argv.length = 3 ∧
      env.isFile (env.expandUser (argv.getD 1 [])) = true ∧
      env.isFile (env.expandUser (argv.getD 2 [])) = true) ∧
    ((mainCmp env argv).1 = 0 ∨ (mainCmp env argv).1 = 1) ∧
    ((mainCmp env argv).1 = 0 → (mainCmp env argv).2 =
      [build_table (read_results (env.readReport (env.expandUser (argv.getD 1 []))))
        (read_results (env.readReport (env.expandUser (argv.getD 2 []))))]) ∧
    ((mainCmp env argv).1 = 1 → ∃ msg, (mainCmp env argv).2 = [msg] ∧ msg ≠ []) := by
  simp only [mainCmp]
  by_cases hl : argv.length = 3
  · rw [if_neg (fun hc => hc hl)]
    cases hb : env.isFile (env.expandUser (argv.getD 1 []))
    · simp only [Bool.not_false, if_true]
      refine ⟨by simp [hl], by simp, by simp, fun _ => ⟨_, rfl, ?_⟩⟩
      intro hcon
      rw [List.append_eq_nil] at hcon
      exact absurd hcon.1 (by decide)
    · simp only [Bool.not_true, Bool.false_eq_true, if_false]
      cases hn : env.isFile (env.expandUser (argv.getD 2 []))
      · simp only [Bool.not_false, if_true]
        refine ⟨by simp [hl], by simp, by simp, fun _ => ⟨_, rfl, ?_⟩⟩
        intro hcon
        rw [List.append_eq_nil] at hcon
        exact absurd hcon.1 (by decide)
      · simp only [Bool.not_true, Bool.false_eq_true, if_false]
        exact ⟨by simp [hl], by simp, by simp, by simp⟩
  · rw [if_pos hl]
    exact ⟨by simp [hl], by simp, by simp, fun _ => ⟨usageText, rfl, by decide⟩⟩

theorem c8_witness :
    ((mainCmp ⟨fun _ => true, id, fun _ => []⟩ [['p']]).1 = 0 ↔ ([[('p' : Char)]]).length = 3 ∧
      (fun (_ : List Char) => true) (id (([[('p' : Char)]]).getD 1 [])) = true ∧
      (fun (_ : List Char) => true) (id (([[('p' : Char)]]).getD 2 [])) = true) ∧
    ((mainCmp ⟨fun _ => true, id, fun _ => []⟩ [['p']]).1 = 0 ∨
      (mainCmp ⟨fun _ => true, id, fun _ => []⟩ [['p']]).1 = 1) ∧
    ((mainCmp ⟨fun _ => true, id, fun _ => []⟩ [['p']]).1 = 0 →
      (mainCmp ⟨fun _ => true, id, fun _ => []⟩ [['p']]).2 =
      [build_table (read_results ((fun (_ : List Char) =>
          ([] : List (List (List Char × List Char)))) (id (([[('p' : Char)]]).getD 1 []))))
        (read_results ((fun (_ : List Char) =>
          ([] : List (List (List Char × List Char)))) (id (([[('p' : Char)]]).getD 2 []))))]) ∧
    ((mainCmp ⟨fun _ => true, id, fun _ => []⟩ [['p']]).1 = 1 →
      ∃ msg, (mainCmp ⟨fun _ => true, id, fun _ => []⟩ [['p']]).2 = [msg] ∧ msg ≠ []) :=
  c8_exit_codes ⟨fun _ => true, id, fun _ => []⟩ [['p']]

/-! ## Claim C6: loading a report -/

/-- Dict semantics of the string-row loader fragment: the stored result for
a name is the parsed form of the last matching row (duplicates overwrite,
silently). -/
theorem read_results_last_row_wins (rows : List (List (List Char × List Char)))
    (name : List Char) :
    rsGet (read_results rows) name =
      ((rows.filter (fun row => methodName row == name)).getLast?).map rowResult := by
  unfold rsGet read_results
  rw [List.filter_map]
  rw [List.getLast?_map, Option.map_map]
  rfl

theorem rowGetE_embed (row : List (List Char × List Char)) (key dflt : List Char) :
    rowGetE (embedRow row) key dflt = some (rowGet row key dflt) := by
  unfold rowGetE rowGet
  have hfil : (embedRow row).filter (fun p => p.1 == key) =
      (row.filter (fun p => p.1 == key)).map (fun p => (p.1, some p.2)) := by
    unfold embedRow
    rw [List.filter_map]
    rfl
  rw [hfil, List.getLast?_map]
  cases h : (row.filter (fun p => p.1 == key)).getLast? with
  | none => rfl
  | some p => rfl

theorem rowResultE_embed (row : List (List Char × List Char)) :
    rowResultE (embedRow row) = Except.ok (methodName row, rowResult row) := by
  unfold rowResultE
  rw [rowGetE_embed, rowGetE_embed, rowGetE_embed, rowGetE_embed]
  rfl

theorem read_resultsE_embed (rows : List (List (List Char × List Char))) :
    read_resultsE (rows.map embedRow) = Except.ok (read_results rows) := by
  induction rows with
  | nil => rfl
  | cons r t ih =>
    simp only [List.map_cons, read_resultsE, rowResultE_embed, ih]
    rfl

theorem rowResultE_error_of_mean_none {row : List (List Char × Option (List Char))}
    (h : rowGetE row ("Mean".toList) [] = none) :
    rowResultE row = Except.error () := by
  cases hm : methodNameE (rowGetE row ("Method".toList) []) with
  | error e =>
    cases e
    simp only [rowResultE, hm]
    rfl
  | ok m =>
    simp only [rowResultE, hm, h]
    rfl

theorem read_resultsE_error {rows : List (List (List Char × Option (List Char)))}
    {row : List (List Char × Option (List Char))} (hmem : row ∈ rows)
    (hrow : rowResultE row = Except.error ()) :
    read_resultsE rows = Except.error () := by
  induction rows with
  | nil => cases hmem
  | cons r t ih =>
    rcases List.mem_cons.mp hmem with h | h
    · subst h
      simp only [read_resultsE, hrow]
      rfl
    · simp only [read_resultsE, ih h]
      cases hr : rowResultE r with
      | error e =>
        cases e
        rfl
      | ok pr => rfl

/-- C6: code bug — loading does not "never reject a row": a report row
shorter than the header leaves its `Mean` cell as `None` (`csv.DictReader`
`restval`), and `value.strip()` inside `parse_duration` then raises
`AttributeError`, aborting the whole load instead of yielding null fields.
On complete rows (every cell present) the loader is total and agrees with
the string-row model, whose last-duplicate-wins lookup `read_results`
gives. -/
theorem c6_ragged_row_aborts
    (rows : List (List (List Char × Option (List Char))))
    (row : List (List Char × Option (List Char)))
    (h1 : row ∈ rows) (h2 : rowGetE row ("Mean".toList) [] = none)
    (rows2 : List (List (List Char × List Char))) :
    read_resultsE rows = Except.error () ∧
    read_resultsE (rows2.map embedRow) = Except.ok (read_results rows2) :=
  ⟨read_resultsE_error h1 (rowResultE_error_of_mean_none h2),
    read_resultsE_embed rows2⟩

theorem c6_witness :
    read_resultsE [[(("Method".toList : List Char), some ['X']),
      ("Mean".toList, (none : Option (List Char)))]] = Except.error () ∧
    read_resultsE (([[(("Method".toList : List Char), ['X'])]]).map embedRow) =
      Except.ok (read_results [[(("Method".toList : List Char), ['X'])]]) :=
  c6_ragged_row_aborts _
    [(("Method".toList : List Char), some ['X']),
      ("Mean".toList, (none : Option (List Char)))]
    (List.mem_cons_self _ _) (by decide) [[(("Method".toList : List Char), ['X'])]]

/-! ## Table-layout lemmas for C5 -/

theorem foldl_max_init_le (xs : List Nat) : ∀ a, a ≤ xs.foldl Nat.max a := by
  induction xs with
  | nil => intro a; exact Nat.le_refl a
  | cons x xs ih =>
    intro a
    exact Nat.le_trans (Nat.le_max_left a x) (ih (Nat.max a x))

theorem foldl_max_mem_ge (xs : List Nat) :
    ∀ (a x : Nat), x ∈ xs → x ≤ xs.foldl Nat.max a := by
  induction xs with
  | nil => intro _ _ hx; cases hx
  | cons y ys ih =>
    intro a x hx
    rcases List.mem_cons.mp hx with h | h
    · subst h
      exact Nat.le_trans (Nat.le_max_right a x) (foldl_max_init_le ys (Nat.max a x))
    · exact ih (Nat.max a y) x h

theorem listMax_ge {xs : List Nat} {x : Nat} (hx : x ∈ xs) : x ≤ listMax xs :=
  foldl_max_mem_ge xs 0 x hx

theorem foldl_max_mem_or (xs : List Nat) : ∀ a, xs.foldl Nat.max a ∈ xs ∨ xs.foldl Nat.max a = a := by
  induction xs with
  | nil => intro a; exact Or.inr rfl
  | cons x xs ih =>
    intro a
    show List.foldl Nat.max (Nat.max a x) xs ∈ x :: xs ∨
      List.foldl Nat.max (Nat.max a x) xs = a
    rcases ih (Nat.max a x) with h | h
    · exact Or.inl (List.mem_cons_of_mem x h)
    · rw [h]
      rcases Nat.le_total a x with h2 | h2
      · rw [show Nat.max a x = x from Nat.max_eq_right h2]
        exact Or.inl (List.mem_cons_self x xs)
      · rw [show Nat.max a x = a from Nat.max_eq_left h2]
        exact Or.inr rfl

theorem listMax_mem {xs : List Nat} (h : xs ≠ []) : listMax xs ∈ xs := by
  unfold listMax
  rcases foldl_max_mem_or xs 0 with h1 | h1
  · exact h1
  · match xs with
    | [] => exact absurd rfl h
    | y :: ys =>
      rw [h1]
      rcases Nat.eq_zero_or_pos y with h2 | h2
      · rw [← h2]; exact List.mem_cons_self y ys
      · have : y ≤ listMax (y :: ys) := listMax_ge (List.mem_cons_self y ys)
        unfold listMax at this
        rw [h1] at this
        omega

theorem ljust_length (s : List Char) (w : Nat) :
    (ljust s w).length = s.length + (w - s.length) := by
  simp [ljust]

theorem pyJoin_length (sep : List Char) :
    ∀ ts : List (List Char),
      (pyJoin sep ts).length =
        (ts.map List.length).sum + sep.length * (ts.length - 1) := by
  intro ts
  induction ts with
  | nil => simp [pyJoin]
  | cons t ts2 ih =>
    match ts2 with
    | [] => simp [pyJoin]
    | t2 :: ts3 =>
      rw [pyJoin_cons_cons, List.length_append, List.length_append, ih]
      simp only [List.map_cons, List.sum_cons, List.length_cons, Nat.add_sub_cancel]
      ring

theorem zipWith_ljust_lengths :
    ∀ (r : List (List Char)) (W : List Nat), r.length = W.length →
      (∀ i, i < W.length → (r.getD i []).length ≤ W.getD i 0) →
      (List.zipWith ljust r W).map List.length = W := by
  intro r
  induction r with
  | nil =>
    intro W hlen _
    have hW : W = [] := List.length_eq_zero.mp hlen.symm
    subst hW
    rfl
  | cons a r2 ih =>
    intro W hlen hle
    match W with
    | [] => cases hlen
    | w :: W2 =>
      simp only [List.zipWith_cons_cons, List.map_cons]
      have h0 := hle 0 (by simp)
      simp only [List.getD_cons_zero] at h0
      rw [ljust_length]
      have he : a.length + (w - a.length) = w := by omega
      rw [he, ih W2 (by simpa using hlen)
        (fun i hi => by
          have := hle (i + 1) (by simp; omega)
          simpa using this)]

theorem mem_renderRow_of_mem_cell (i : Nat) {W : List Nat} {row : List (List Char)}
    {c : Char} (hW : W.length = 7) (hrow : row.length = 7) (hi : i < 7)
    (hc : c ∈ row.getD i []) : c ∈ renderRow W row := by
  have hzlen : (List.zipWith ljust row W).length = 7 := by
    rw [List.length_zipWith, hrow, hW]
    omega
  have hlt : i < (List.zipWith ljust row W).length := by omega
  have hget : (List.zipWith ljust row W)[i] = ljust (row.getD i []) (W.getD i 0) := by
    rw [List.getElem_zipWith]
    rw [List.getD_eq_getElem row [] (by omega), List.getD_eq_getElem W 0 (by omega)]
  have hmem1 : c ∈ ljust (row.getD i []) (W.getD i 0) :=
    List.mem_append.mpr (Or.inl hc)
  have hmem2 : ljust (row.getD i []) (W.getD i 0) ∈ List.zipWith ljust row W := by
    rw [← hget]
    exact List.getElem_mem hlt
  exact mem_pyJoin ("  ".toList) _ _ hmem1 hmem2

/-- `buildLines` spelled out. -/
theorem buildLines_eq (base new : List (List Char × BenchmarkResult)) :
    buildLines base new =
      renderRow (tableWidths base new) HEADERS ::
      List.replicate (renderRow (tableWidths base new) HEADERS).length '-' ::
      (sortedNames base new).map
        (fun n => renderRow (tableWidths base new) (rowFor base new n)) := by
  show (match HEADERS :: (sortedNames base new).map (rowFor base new) with
    | [] => []
    | h :: rest =>
      renderRow (tableWidths base new) h ::
        List.replicate (renderRow (tableWidths base new) h).length '-' ::
        rest.map (renderRow (tableWidths base new))) = _
  simp only [List.map_map]
  rfl

theorem tableRows_length_7 (base new : List (List Char × BenchmarkResult)) :
    ∀ row ∈ tableRows base new, row.length = 7 := by
  intro row hrow
  unfold tableRows at hrow
  rcases List.mem_cons.mp hrow with h | h
  · subst h; rfl
  · obtain ⟨n, _, hn⟩ := List.mem_map.mp h
    rw [← hn]
    rfl

theorem tableWidths_length (base new : List (List Char × BenchmarkResult)) :
    (tableWidths base new).length = 7 := by
  simp [tableWidths, HEADERS]

theorem tableWidths_getD (base new : List (List Char × BenchmarkResult))
    (i : Nat) (hi : i < 7) :
    (tableWidths base new).getD i 0 =
      listMax ((tableRows base new).map (fun row => (row.getD i []).length)) := by
  unfold tableWidths
  rw [List.getD_eq_getElem _ 0 (by simp [HEADERS]; omega)]
  rw [List.getElem_map]
  congr 1
  rw [List.getElem_range]

theorem cell_le_width (base new : List (List Char × BenchmarkResult))
    {row : List (List Char)} (hrow : row ∈ tableRows base new)
    (i : Nat) (hi : i < 7) :
    (row.getD i []).length ≤ (tableWidths base new).getD i 0 := by
  rw [tableWidths_getD base new i hi]
  exact listMax_ge (List.mem_map.mpr ⟨row, hrow, rfl⟩)

theorem renderRow_length (base new : List (List Char × BenchmarkResult))
    {row : List (List Char)} (hrow : row ∈ tableRows base new) :
    (renderRow (tableWidths base new) row).length =
      (tableWidths base new).sum + 2 * 6 := by
  unfold renderRow
  rw [pyJoin_length]
  have hW : (tableWidths base new).length = 7 := tableWidths_length base new
  have hr : row.length = 7 := tableRows_length_7 base new row hrow
  rw [zipWith_ljust_lengths row (tableWidths base new) (by omega)
    (fun i hi => cell_le_width base new hrow i (by omega))]
  rw [List.length_zipWith, hr, hW]
  rfl

theorem dot_mem_fmtFixed (q : ℚ) : '.' ∈ fmtFixed q 3 := by
  unfold fmtFixed
  refine List.mem_append.mpr (Or.inr ?_)
  rw [if_neg (by omega)]
  exact List.mem_cons_self _ _

theorem format_duration_nondash (x : Option ℚ) :
    ∃ c ∈ format_duration x, ¬(c = '-') := by
  match x with
  | none => exact ⟨'/', by decide, by decide⟩
  | some q =>
    refine ⟨'.', ?_, by decide⟩
    simp only [format_duration]
    by_cases h1 : qabs q < 1 / 10 ^ 6
    · rw [if_pos h1]
      exact List.mem_append.mpr (Or.inl (dot_mem_fmtFixed _))
    · rw [if_neg h1]
      by_cases h2 : qabs q < 1 / 10 ^ 3
      · rw [if_pos h2]
        exact List.mem_append.mpr (Or.inl (dot_mem_fmtFixed _))
      · rw [if_neg h2]
        by_cases h3 : qabs q < 1
        · rw [if_pos h3]
          exact List.mem_append.mpr (Or.inl (dot_mem_fmtFixed _))
        · rw [if_neg h3]
          exact List.mem_append.mpr (Or.inl (dot_mem_fmtFixed _))

theorem rowFor_getD_1 (base new : List (List Char × BenchmarkResult)) (n : List Char) :
    (rowFor base new n).getD 1 [] =
      format_duration ((rsGet base n).bind (fun r => r.mean_seconds)) := rfl

theorem rowFor_mem_tableRows (base new : List (List Char × BenchmarkResult))
    {n : List Char} (hn : n ∈ sortedNames base new) :
    rowFor base new n ∈ tableRows base new :=
  List.mem_cons_of_mem _ (List.mem_map.mpr ⟨n, hn, rfl⟩)

/-! ## Claim C5: table rendering layout -/

/-- C5: in the rendered table, (i) exactly one separator line of dashes
follows the header row and its length equals the header line's length,
(ii) every non-separator line is a row rendered by `renderRow` (cells
left-justified, padded to the column widths, two spaces between columns)
and all have the same length as the header line, (iii) no non-separator
line consists of dashes, and (iv) each column's width is the maximum
rendered cell width of that column, header included. -/
theorem c5_table_layout (base new : List (List Char × BenchmarkResult)) :
    (buildLines base new).length = (tableRows base new).length + 1 ∧
    (buildLines base new).getD 1 [] =
      List.replicate ((buildLines base new).getD 0 []).length '-' ∧
    (∀ j, j < (buildLines base new).length → j ≠ 1 →
      ((buildLines base new).getD j []).length =
        ((buildLines base new).getD 0 []).length ∧
      (∃ c ∈ (buildLines base new).getD j [], ¬(c = '-')) ∧
      (buildLines base new).getD j [] =
        renderRow (tableWidths base new) ((tableRows base new).getD (j - 1) [])) ∧
    (∀ i, i < 7 →
      (∀ row ∈ tableRows base new,
        (row.getD i []).length ≤ (tableWidths base new).getD i 0) ∧
      (∃ row ∈ tableRows base new,
        (row.getD i []).length = (tableWidths base new).getD i 0)) := by
  have hHmem : HEADERS ∈ tableRows base new := List.mem_cons_self _ _
  have hWlen : (tableWidths base new).length = 7 := tableWidths_length base new
  refine ⟨?_, ?_, ?_, ?_⟩
  · rw [buildLines_eq]
    simp [tableRows]
  · rw [buildLines_eq]
    rfl
  · intro j hj hj1
    rw [buildLines_eq] at hj ⊢
    match j, hj1 with
    | 0, _ =>
      refine ⟨rfl, ?_, rfl⟩
      refine ⟨'B', ?_, by decide⟩
      exact mem_renderRow_of_mem_cell 0 hWlen rfl (by omega) (by decide)
    | (k + 2), _ =>
      simp only [List.length_cons, List.length_map] at hj
      have hk : k < (sortedNames base new).length := by omega
      have hget : (List.getD (renderRow (tableWidths base new) HEADERS ::
          List.replicate (renderRow (tableWidths base new) HEADERS).length '-' ::
          (sortedNames base new).map
            (fun n => renderRow (tableWidths base new) (rowFor base new n))) (k + 2) []) =
          renderRow (tableWidths base new)
            (rowFor base new ((sortedNames base new).get ⟨k, hk⟩)) := by
        show (List.getD ((sortedNames base new).map
          (fun n => renderRow (tableWidths base new) (rowFor base new n))) k []) = _
        rw [List.getD_eq_getElem _ [] (by simpa using hk), List.getElem_map]
        rfl
      have hnmem : (sortedNames base new).get ⟨k, hk⟩ ∈ sortedNames base new :=
        List.get_mem _ _ hk
      have hrowmem := rowFor_mem_tableRows base new hnmem
      have hrows : (tableRows base new).getD (k + 2 - 1) [] =
          rowFor base new ((sortedNames base new).get ⟨k, hk⟩) := by
        show (tableRows base new).getD (k + 1) [] = _
        unfold tableRows
        show (List.getD ((sortedNames base new).map (rowFor base new)) k []) = _
        rw [List.getD_eq_getElem _ [] (by simpa using hk), List.getElem_map]
        rfl
      refine ⟨?_, ?_, ?_⟩
      · rw [hget, renderRow_length base new hrowmem, renderRow_length base new hHmem,
          List.getD_cons_zero, renderRow_length base new hHmem]
      · rw [hget]
        obtain ⟨c, hcmem, hcne⟩ :=
          format_duration_nondash ((rsGet base ((sortedNames base new).get ⟨k, hk⟩)).bind
            (fun r => r.mean_seconds))
        refine ⟨c, ?_, hcne⟩
        refine mem_renderRow_of_mem_cell 1 hWlen ?_ (by omega) ?_
        · rfl
        · rw [rowFor_getD_1]
          exact hcmem
      · rw [hget, hrows]
  · intro i hi
    refine ⟨fun row hrow => cell_le_width base new hrow i hi, ?_⟩
    rw [tableWidths_getD base new i hi]
    have hne : (tableRows base new).map (fun row => (row.getD i []).length) ≠ [] := by
      unfold tableRows
      simp
    obtain ⟨row, hrowmem, hroweq⟩ := List.mem_map.mp (listMax_mem hne)
    exact ⟨row, hrowmem, hroweq⟩

theorem c5_witness :
    (buildLines [] []).getD 1 [] =
      List.replicate ((buildLines [] []).getD 0 []).length '-' ∧
    (((buildLines [] []).getD 0 []).length = ((buildLines [] []).getD 0 []).length ∧
      (∃ c ∈ (buildLines [] []).getD 0 [], ¬(c = '-')) ∧
      (buildLines [] []).getD 0 [] =
        renderRow (tableWidths [] []) ((tableRows [] []).getD (0 - 1) [])) :=
  ⟨(c5_table_layout [] []).2.1,
   (c5_table_layout [] []).2.2.1 0 (by decide) (by decide)⟩

/-! ## Scanner lemmas for C9 / C3 -/

theorem scanSign_plus (t : List Char) : scanSign ('+' :: t) = (1, t) := rfl

theorem scanSign_minus (t : List Char) : scanSign ('-' :: t) = (-1, t) := rfl

theorem scanSign_other {cs : List Char}
    (h : ∀ c, cs.head? = some c → c ≠ '+' ∧ c ≠ '-') : scanSign cs = (1, cs) := by
  rw [scanSign.eq_def]
  split
  · exact absurd rfl ((h '+' rfl).1)
  · exact absurd rfl ((h '-' rfl).2)
  · rfl

theorem takeWhile_all_append {p : Char → Bool} :
    ∀ (l1 l2 : List Char), (∀ c ∈ l1, p c = true) →
      (∀ c, l2.head? = some c → p c = false) → (l1 ++ l2).takeWhile p = l1 := by
  intro l1
  induction l1 with
  | nil =>
    intro l2 _ h2
    match l2 with
    | [] => rfl
    | c :: t =>
      simp only [List.nil_append, List.takeWhile_cons, h2 c rfl]
      rfl
  | cons a t ih =>
    intro l2 h1 h2
    have ha : p a = true := h1 a (List.mem_cons_self a t)
    simp only [List.cons_append, List.takeWhile_cons, ha, if_true]
    rw [ih l2 (fun c hc => h1 c (List.mem_cons_of_mem a hc)) h2]

theorem dropWhile_all_append {p : Char → Bool} (l1 l2 : List Char)
    (h1 : ∀ c ∈ l1, p c = true) (h2 : ∀ c, l2.head? = some c → p c = false) :
    (l1 ++ l2).dropWhile p = l2 := by
  rw [dropWhile_append_of_forall l1 l2 h1]
  match l2 with
  | [] => rfl
  | c :: t =>
    simp only [List.dropWhile_cons, h2 c rfl]
    rfl

theorem scanFrac_not_dot {sgn : ℚ} {d1 cs2 : List Char}
    (h : ∀ c, cs2.head? = some c → c ≠ '.') :
    scanFrac sgn d1 cs2 =
      if d1.isEmpty then none else some (sgn * (digitsToNat d1 : ℚ), cs2) := by
  rw [scanFrac.eq_def]
  split
  · exact absurd rfl (h '.' rfl)
  · rfl

/-- The maximal-munch scanner on an input of the regex's shape. -/
theorem scanNumber_shaped (sgn d1 d2 frac tail : List Char) (sv : ℚ)
    (hsgn : (sgn = [] ∧ sv = 1) ∨ (sgn = ['+'] ∧ sv = 1) ∨ (sgn = ['-'] ∧ sv = -1))
    (hd1 : ∀ c ∈ d1, isAsciiDigit c = true)
    (hfrac : (frac = [] ∧ d2 = [] ∧ d1 ≠ []) ∨
      (frac = '.' :: d2 ∧ d2 ≠ [] ∧ ∀ c ∈ d2, isAsciiDigit c = true))
    (htail : ∀ c, tail.head? = some c → isAsciiDigit c = false ∧ c ≠ '.') :
    scanNumber (sgn ++ (d1 ++ (frac ++ tail))) =
      some (sv * ((digitsToNat (d1 ++ d2) : ℚ) / 10 ^ d2.length), tail) := by
  have hfrachead : ∀ c, (frac ++ tail).head? = some c → isAsciiDigit c = false := by
    intro c hc
    rcases hfrac with ⟨hf, _, _⟩ | ⟨hf, _, _⟩
    · rw [hf] at hc
      exact (htail c hc).1
    · rw [hf] at hc
      cases hc
      rfl
  have hsign : scanSign (sgn ++ (d1 ++ (frac ++ tail))) = (sv, d1 ++ (frac ++ tail)) := by
    rcases hsgn with ⟨hs, hv⟩ | ⟨hs, hv⟩ | ⟨hs, hv⟩ <;> subst hs <;> subst hv
    · rw [List.nil_append]
      apply scanSign_other
      intro c hc
      cases d1 with
      | nil =>
        rcases hfrac with ⟨_, _, hne⟩ | ⟨hf, _, _⟩
        · exact absurd rfl hne
        · rw [List.nil_append, hf] at hc
          simp only [List.cons_append, List.head?_cons, Option.some_inj] at hc
          subst hc
          exact ⟨by decide, by decide⟩
      | cons a t =>
        rw [List.cons_append] at hc
        simp only [List.head?_cons, Option.some_inj] at hc
        subst hc
        have hda := hd1 a (List.mem_cons_self a t)
        simp only [isAsciiDigit, Bool.and_eq_true, decide_eq_true_eq] at hda
        constructor
        · intro hcon
          subst hcon
          exact absurd hda (by decide)
        · intro hcon
          subst hcon
          exact absurd hda (by decide)
    · rfl
    · rfl
  unfold scanNumber
  rw [hsign]
  have htake : (d1 ++ (frac ++ tail)).takeWhile isAsciiDigit = d1 :=
    takeWhile_all_append d1 (frac ++ tail) hd1 hfrachead
  have hdrop : (d1 ++ (frac ++ tail)).dropWhile isAsciiDigit = frac ++ tail :=
    dropWhile_all_append d1 (frac ++ tail) hd1 hfrachead
  simp only [htake, hdrop]
  rcases hfrac with ⟨hf, hd2, hne⟩ | ⟨hf, hd2, hdig2⟩
  · subst hf
    subst hd2
    rw [List.nil_append, scanFrac_not_dot (fun c hc => (htail c hc).2),
      if_neg (by simpa using hne)]
    rw [List.append_nil, List.length_nil, pow_zero, div_one]
  · subst hf
    rw [List.cons_append]
    show (let d2t := (d2 ++ tail).takeWhile isAsciiDigit
          let cs4 := (d2 ++ tail).dropWhile isAsciiDigit
          if d2t.isEmpty then
            if d1.isEmpty then none
            else some (sv * (digitsToNat d1 : ℚ), '.' :: (d2 ++ tail))
          else some (sv * ((digitsToNat (d1 ++ d2t) : ℚ) / 10 ^ d2t.length), cs4)) = _
    have htake2 : (d2 ++ tail).takeWhile isAsciiDigit = d2 :=
      takeWhile_all_append d2 tail hdig2 (fun c hc => (htail c hc).1)
    have hdrop2 : (d2 ++ tail).dropWhile isAsciiDigit = tail :=
      dropWhile_all_append d2 tail hdig2 (fun c hc => (htail c hc).1)
    simp only [htake2, hdrop2]
    rw [if_neg (by simpa using hd2)]

theorem toLower_cases (c : Char) :
    Char.toLower c = c ∨ (65 ≤ c.toNat ∧ c.toNat ≤ 90) := by
  unfold Char.toLower
  by_cases h : c.toNat ≥ 65 ∧ c.toNat ≤ 90
  · exact Or.inr ⟨h.1, h.2⟩
  · rw [if_neg h]
    exact Or.inl rfl

theorem head_props_of_toLower {c d : Char} (h : Char.toLower c = d)
    (hd1 : pyIsSpace d = false) (hd2 : isAsciiDigit d = false) (hd3 : ¬(d = '.')) :
    pyIsSpace c = false ∧ isAsciiDigit c = false ∧ ¬(c = '.') := by
  rcases toLower_cases c with h1 | h1
  · rw [h1] at h
    subst h
    exact ⟨hd1, hd2, hd3⟩
  · refine ⟨?_, ?_, ?_⟩
    · rw [Bool.eq_false_iff]
      intro hsp
      simp only [pyIsSpace, Bool.or_eq_true, Bool.and_eq_true, decide_eq_true_eq] at hsp
      omega
    · rw [Bool.eq_false_iff]
      intro hdg
      simp only [isAsciiDigit, Bool.and_eq_true, decide_eq_true_eq] at hdg
      omega
    · intro hcon
      subst hcon
      exact absurd h1 (by decide)

theorem space_not_digit {c : Char} (h : pyIsSpace c = true) : isAsciiDigit c = false := by
  rw [Bool.eq_false_iff]
  intro hdg
  simp only [pyIsSpace, Bool.or_eq_true, Bool.and_eq_true, decide_eq_true_eq] at h
  simp only [isAsciiDigit, Bool.and_eq_true, decide_eq_true_eq] at hdg
  omega

theorem space_ne_dot {c : Char} (h : pyIsSpace c = true) : ¬(c = '.') := by
  intro hcon
  subst hcon
  exact absurd h (by decide)

theorem matchDurUnit_of_lower {u : List Char} (rest : List Char) {f : ℚ}
    (hu : (pyLower u = ['n', 's'] ∧ f = 1 / 10 ^ 9) ∨
      (pyLower u = ['u', 's'] ∧ f = 1 / 10 ^ 6) ∨
      (pyLower u = ['m', 's'] ∧ f = 1 / 10 ^ 3) ∨ (pyLower u = ['s'] ∧ f = 1)) :
    matchDurUnit (u ++ rest) = some f := by
  have hl : pyLower (u ++ rest) = pyLower u ++ pyLower rest := List.map_append _ u rest
  unfold matchDurUnit
  rcases hu with ⟨h1, h2⟩ | ⟨h1, h2⟩ | ⟨h1, h2⟩ | ⟨h1, h2⟩ <;> subst h2 <;>
    rw [hl, h1]
  · rw [if_pos (by simp [List.isPrefixOf])]
  · rw [if_neg (by simp [List.isPrefixOf]), if_pos (by simp [List.isPrefixOf])]
  · rw [if_neg (by simp [List.isPrefixOf]), if_neg (by simp [List.isPrefixOf]),
      if_pos (by simp [List.isPrefixOf])]
  · rw [if_neg (by simp [List.isPrefixOf]), if_neg (by simp [List.isPrefixOf]),
      if_neg (by simp [List.isPrefixOf]), if_pos (by simp [List.isPrefixOf])]

theorem matchByteUnit_of_lower {u : List Char} (rest : List Char) {f : ℚ}
    (hu : (pyLower u = ['b'] ∧ f = 1) ∨ (pyLower u = ['k', 'b'] ∧ f = 1024) ∨
      (pyLower u = ['m', 'b'] ∧ f = 1024 * 1024)) :
    matchByteUnit (u ++ rest) = some f := by
  have hl : pyLower (u ++ rest) = pyLower u ++ pyLower rest := List.map_append _ u rest
  unfold matchByteUnit
  rcases hu with ⟨h1, h2⟩ | ⟨h1, h2⟩ | ⟨h1, h2⟩ <;> subst h2 <;> rw [hl, h1]
  · rw [if_pos (by simp [List.isPrefixOf])]
  · rw [if_neg (by simp [List.isPrefixOf]), if_pos (by simp [List.isPrefixOf])]
  · rw [if_neg (by simp [List.isPrefixOf]), if_neg (by simp [List.isPrefixOf]),
      if_pos (by simp [List.isPrefixOf])]

/-- Head character of a recognised unit: not whitespace, not a digit, not a
dot. -/
theorem unit_head_props {u : List Char} {lu : List Char} (hu : pyLower u = lu)
    (hlu : ∀ d, lu.head? = some d →
      pyIsSpace d = false ∧ isAsciiDigit d = false ∧ ¬(d = '.'))
    (hne : lu ≠ []) :
    ∃ cu u2, u = cu :: u2 ∧ pyIsSpace cu = false ∧ isAsciiDigit cu = false ∧
      ¬(cu = '.') := by
  match u, hu with
  | [], hu => exact absurd (hu.symm.trans (by rfl)) hne
  | cu :: u2, hu =>
    refine ⟨cu, u2, rfl, ?_⟩
    have hhead : lu.head? = some (Char.toLower cu) := by
      rw [← hu]
      rfl
    obtain ⟨p1, p2, p3⟩ := hlu (Char.toLower cu) hhead
    exact head_props_of_toLower rfl p1 p2 p3

/-- If the cleaned, micro-normalised strip of `s` decomposes as an optional
sign, a digit/fraction group, whitespace, a duration unit and arbitrary
trailing characters, `parse_duration` succeeds with value × unit factor. -/
theorem parse_duration_shaped (s sgn d1 d2 frac ws u rest : List Char) (sv f : ℚ)
    (hclean : ((pyStrip s).filter (fun c => !(c == ','))).map microToU =
      sgn ++ (d1 ++ (frac ++ (ws ++ (u ++ rest)))))
    (hsgn : (sgn = [] ∧ sv = 1) ∨ (sgn = ['+'] ∧ sv = 1) ∨ (sgn = ['-'] ∧ sv = -1))
    (hd1 : ∀ c ∈ d1, isAsciiDigit c = true)
    (hfrac : (frac = [] ∧ d2 = [] ∧ d1 ≠ []) ∨
      (frac = '.' :: d2 ∧ d2 ≠ [] ∧ ∀ c ∈ d2, isAsciiDigit c = true))
    (hws : ∀ c ∈ ws, pyIsSpace c = true)
    (hu : (pyLower u = ['n', 's'] ∧ f = 1 / 10 ^ 9) ∨
      (pyLower u = ['u', 's'] ∧ f = 1 / 10 ^ 6) ∨
      (pyLower u = ['m', 's'] ∧ f = 1 / 10 ^ 3) ∨ (pyLower u = ['s'] ∧ f = 1)) :
    parse_duration s =
      some (sv * ((digitsToNat (d1 ++ d2) : ℚ) / 10 ^ d2.length) * f) := by
  have hhead : ∃ cu u2, u = cu :: u2 ∧ pyIsSpace cu = false ∧
      isAsciiDigit cu = false ∧ ¬(cu = '.') := by
    rcases hu with ⟨h1, _⟩ | ⟨h1, _⟩ | ⟨h1, _⟩ | ⟨h1, _⟩ <;>
      refine unit_head_props h1 ?_ (by decide) <;>
      intro d hd <;>
      simp only [List.head?_cons, Option.some_inj] at hd <;>
      subst hd <;>
      exact ⟨by decide, by decide, by decide⟩
  obtain ⟨cu, u2, hu2, hcsp, hcdg, hcdot⟩ := hhead
  have htail : ∀ c, (ws ++ (u ++ rest)).head? = some c →
      isAsciiDigit c = false ∧ c ≠ '.' := by
    cases ws with
    | nil =>
      intro c hc
      rw [hu2] at hc
      simp only [List.nil_append, List.cons_append, List.head?_cons,
        Option.some_inj] at hc
      subst hc
      exact ⟨hcdg, hcdot⟩
    | cons w ws2 =>
      intro c hc
      simp only [List.cons_append, List.head?_cons, Option.some_inj] at hc
      subst hc
      have hsp := hws w (List.mem_cons_self w ws2)
      exact ⟨space_not_digit hsp, space_ne_dot hsp⟩
  have hscan := scanNumber_shaped sgn d1 d2 frac (ws ++ (u ++ rest)) sv hsgn hd1
    hfrac htail
  have hdrop : (ws ++ (u ++ rest)).dropWhile pyIsSpace = u ++ rest := by
    refine dropWhile_all_append ws (u ++ rest) hws ?_
    intro c hc
    rw [hu2] at hc
    simp only [List.cons_append, List.head?_cons, Option.some_inj] at hc
    subst hc
    exact hcsp
  have hunit : matchDurUnit (u ++ rest) = some f := matchDurUnit_of_lower rest hu
  have hvne : pyStrip s ≠ [] := by
    intro h0
    rw [h0, hu2] at hclean
    simp at hclean
  have hne : (pyStrip s).isEmpty = false := by
    cases hps : pyStrip s with
    | nil => exact absurd hps hvne
    | cons a t => rfl
  simp only [parse_duration, hne, Bool.false_eq_true, if_false, hclean, hscan,
    hdrop, hunit]

/-- The byte-size analogue: sign, digit group, whitespace, a byte unit, and
arbitrary trailing characters. -/
theorem parse_bytes_shaped (s sgn d1 d2 frac ws u rest : List Char) (sv f : ℚ)
    (hclean : (pyStrip s).filter (fun c => !(c == ',')) =
      sgn ++ (d1 ++ (frac ++ (ws ++ (u ++ rest)))))
    (hsgn : (sgn = [] ∧ sv = 1) ∨ (sgn = ['+'] ∧ sv = 1) ∨ (sgn = ['-'] ∧ sv = -1))
    (hd1 : ∀ c ∈ d1, isAsciiDigit c = true)
    (hfrac : (frac = [] ∧ d2 = [] ∧ d1 ≠ []) ∨
      (frac = '.' :: d2 ∧ d2 ≠ [] ∧ ∀ c ∈ d2, isAsciiDigit c = true))
    (hws : ∀ c ∈ ws, pyIsSpace c = true)
    (hu : (pyLower u = ['b'] ∧ f = 1) ∨ (pyLower u = ['k', 'b'] ∧ f = 1024) ∨
      (pyLower u = ['m', 'b'] ∧ f = 1024 * 1024)) :
    parse_bytes s =
      some (sv * ((digitsToNat (d1 ++ d2) : ℚ) / 10 ^ d2.length) * f) := by
  have hhead : ∃ cu u2, u = cu :: u2 ∧ pyIsSpace cu = false ∧
      isAsciiDigit cu = false ∧ ¬(cu = '.') := by
    rcases hu with ⟨h1, _⟩ | ⟨h1, _⟩ | ⟨h1, _⟩ <;>
      refine unit_head_props h1 ?_ (by decide) <;>
      intro d hd <;>
      simp only [List.head?_cons, Option.some_inj] at hd <;>
      subst hd <;>
      exact ⟨by decide, by decide, by decide⟩
  obtain ⟨cu, u2, hu2, hcsp, hcdg, hcdot⟩ := hhead
  have htail : ∀ c, (ws ++ (u ++ rest)).head? = some c →
      isAsciiDigit c = false ∧ c ≠ '.' := by
    cases ws with
    | nil =>
      intro c hc
      rw [hu2] at hc
      simp only [List.nil_append, List.cons_append, List.head?_cons,
        Option.some_inj] at hc
      subst hc
      exact ⟨hcdg, hcdot⟩
    | cons w ws2 =>
      intro c hc
      simp only [List.cons_append, List.head?_cons, Option.some_inj] at hc
      subst hc
      have hsp := hws w (List.mem_cons_self w ws2)
      exact ⟨space_not_digit hsp, space_ne_dot hsp⟩
  have hscan := scanNumber_shaped sgn d1 d2 frac (ws ++ (u ++ rest)) sv hsgn hd1
    hfrac htail
  have hdrop : (ws ++ (u ++ rest)).dropWhile pyIsSpace = u ++ rest := by
    refine dropWhile_all_append ws (u ++ rest) hws ?_
    intro c hc
    rw [hu2] at hc
    simp only [List.cons_append, List.head?_cons, Option.some_inj] at hc
    subst hc
    exact hcsp
  have hunit : matchByteUnit (u ++ rest) = some f := matchByteUnit_of_lower rest hu
  have hvne : pyStrip s ≠ [] := by
    intro h0
    rw [h0, hu2] at hclean
    simp at hclean
  have hne : (pyStrip s).isEmpty = false := by
    cases hps : pyStrip s with
    | nil => exact absurd hps hvne
    | cons a t => rfl
  simp only [parse_bytes, hne, Bool.false_eq_true, if_false, hclean, hscan,
    hdrop, hunit]

/-- C9: `parse_duration` and `parse_bytes` match only a leading signed decimal
number, optional whitespace and a recognised unit suffix, ignoring all
trailing characters: whenever the stripped input (commas removed, and for
durations micro signs normalised to `u`) decomposes as sign ++ digits
(++ optional fraction) ++ whitespace ++ unit ++ anything, the parse succeeds
and returns the number times the unit factor, whatever `rest` is — e.g.
`"10 seconds"` parses as 10 s and `"64 Bytes"` as 64 B. -/
theorem c9_prefix_parse
    (s sgn d1 d2 frac ws u rest : List Char) (sv f : ℚ)
    (t sgn2 e1 e2 frac2 ws2 w rest2 : List Char) (sv2 g : ℚ)
    (hclean : ((pyStrip s).filter (fun c => !(c == ','))).map microToU =
      sgn ++ (d1 ++ (frac ++ (ws ++ (u ++ rest)))))
    (hsgn : (sgn = [] ∧ sv = 1) ∨ (sgn = ['+'] ∧ sv = 1) ∨ (sgn = ['-'] ∧ sv = -1))
    (hd1 : ∀ c ∈ d1, isAsciiDigit c = true)
    (hfrac : (frac = [] ∧ d2 = [] ∧ d1 ≠ []) ∨
      (frac = '.' :: d2 ∧ d2 ≠ [] ∧ ∀ c ∈ d2, isAsciiDigit c = true))
    (hws : ∀ c ∈ ws, pyIsSpace c = true)
    (hu : (pyLower u = ['n', 's'] ∧ f = 1 / 10 ^ 9) ∨
      (pyLower u = ['u', 's'] ∧ f = 1 / 10 ^ 6) ∨
      (pyLower u = ['m', 's'] ∧ f = 1 / 10 ^ 3) ∨ (pyLower u = ['s'] ∧ f = 1))
    (hclean2 : (pyStrip t).filter (fun c => !(c == ',')) =
      sgn2 ++ (e1 ++ (frac2 ++ (ws2 ++ (w ++ rest2)))))
    (hsgn2 : (sgn2 = [] ∧ sv2 = 1) ∨ (sgn2 = ['+'] ∧ sv2 = 1) ∨
      (sgn2 = ['-'] ∧ sv2 = -1))
    (he1 : ∀ c ∈ e1, isAsciiDigit c = true)
    (hfrac2 : (frac2 = [] ∧ e2 = [] ∧ e1 ≠ []) ∨
      (frac2 = '.' :: e2 ∧ e2 ≠ [] ∧ ∀ c ∈ e2, isAsciiDigit c = true))
    (hws2 : ∀ c ∈ ws2, pyIsSpace c = true)
    (hw : (pyLower w = ['b'] ∧ g = 1) ∨ (pyLower w = ['k', 'b'] ∧ g = 1024) ∨
      (pyLower w = ['m', 'b'] ∧ g = 1024 * 1024)) :
    parse_duration s =
      some (sv * ((digitsToNat (d1 ++ d2) : ℚ) / 10 ^ d2.length) * f) ∧
    parse_bytes t =
      some (sv2 * ((digitsToNat (e1 ++ e2) : ℚ) / 10 ^ e2.length) * g) :=
  ⟨parse_duration_shaped s sgn d1 d2 frac ws u rest sv f hclean hsgn hd1 hfrac
      hws hu,
    parse_bytes_shaped t sgn2 e1 e2 frac2 ws2 w rest2 sv2 g hclean2 hsgn2 he1
      hfrac2 hws2 hw⟩

theorem c9_witness :
    parse_duration ['1', '0', ' ', 's', 'e', 'c', 'o', 'n', 'd', 's'] = some 10 ∧
    parse_bytes ['6', '4', ' ', 'B', 'y', 't', 'e', 's'] = some 64 := by
  have h := c9_prefix_parse
    ['1', '0', ' ', 's', 'e', 'c', 'o', 'n', 'd', 's'] [] ['1', '0'] [] [] [' ']
    ['s'] ['e', 'c', 'o', 'n', 'd', 's'] 1 1
    ['6', '4', ' ', 'B', 'y', 't', 'e', 's'] [] ['6', '4'] [] [] [' ']
    ['B'] ['y', 't', 'e', 's'] 1 1
    (by decide) (Or.inl ⟨rfl, rfl⟩) (by decide) (Or.inl ⟨rfl, rfl, by decide⟩)
    (by decide) (Or.inr (Or.inr (Or.inr ⟨by decide, rfl⟩)))
    (by decide) (Or.inl ⟨rfl, rfl⟩) (by decide) (Or.inl ⟨rfl, rfl, by decide⟩)
    (by decide) (Or.inl ⟨by decide, rfl⟩)
  have e1 : digitsToNat (['1', '0'] ++ ([] : List Char)) = 10 := by decide
  have e2 : digitsToNat (['6', '4'] ++ ([] : List Char)) = 64 := by decide
  obtain ⟨h1, h2⟩ := h
  rw [e1] at h1
  rw [e2] at h2
  constructor
  · rw [h1]
    norm_num
  · rw [h2]
    norm_num

theorem qabs_eq_abs (q : ℚ) : qabs q = |q| := by
  unfold qabs
  rcases lt_or_le q 0 with h | h
  · rw [if_pos h, abs_of_neg h]
  · rw [if_neg (not_lt.mpr h), abs_of_nonneg h]

theorem rat_floor_eq (q : ℚ) : q.floor = ⌊q⌋ := by
  rw [Rat.floor_def', Rat.floor_def]

theorem rhe_cases (q : ℚ) : rhe q = ⌊q⌋ ∨ rhe q = ⌊q⌋ + 1 := by
  simp only [rhe]
  rw [rat_floor_eq q]
  split_ifs with h1 h2 h3
  · exact Or.inl rfl
  · exact Or.inr rfl
  · exact Or.inl rfl
  · exact Or.inr rfl

theorem rhe_nonneg {q : ℚ} (hq : 0 ≤ q) : 0 ≤ rhe q := by
  rcases rhe_cases q with h | h <;> rw [h]
  · exact Int.floor_nonneg.mpr hq
  · have := Int.floor_nonneg.mpr hq
    omega

/-- Round-half-even differs from its argument by at most one half. -/
theorem rhe_sub_bound (q : ℚ) : qabs ((rhe q : ℚ) - q) ≤ 1 / 2 := by
  have hden : (0 : ℚ) < (q.den : ℚ) := by exact_mod_cast q.den_pos
  have hnum : (q.num : ℚ) = q * (q.den : ℚ) :=
    (div_eq_iff (ne_of_gt hden)).mp (Rat.num_div_den q)
  have hfl : ((⌊q⌋ : ℤ) : ℚ) ≤ q := Int.floor_le q
  have hfl2 : q < (⌊q⌋ : ℚ) + 1 := Int.lt_floor_add_one q
  simp only [rhe]
  rw [rat_floor_eq q, qabs_eq_abs, abs_sub_le_iff]
  split_ifs with h1 h2 h3
  · have h1' : 2 * (q.num : ℚ) - 2 * (⌊q⌋ : ℚ) * (q.den : ℚ) < (q.den : ℚ) := by
      exact_mod_cast h1
    rw [hnum] at h1'
    constructor
    · linarith [hfl]
    · nlinarith [h1', hden]
  · have h2' : (q.den : ℚ) < 2 * (q.num : ℚ) - 2 * (⌊q⌋ : ℚ) * (q.den : ℚ) := by
      exact_mod_cast h2
    rw [hnum] at h2'
    push_cast
    constructor
    · nlinarith [h2', hden]
    · linarith [hfl2]
  · have heq : 2 * q.num - 2 * ⌊q⌋ * q.den = (q.den : ℤ) :=
      le_antisymm (not_lt.mp h2) (not_lt.mp h1)
    have heq' : 2 * (q.num : ℚ) - 2 * (⌊q⌋ : ℚ) * (q.den : ℚ) = (q.den : ℚ) := by
      exact_mod_cast heq
    rw [hnum] at heq'
    constructor
    · linarith [hfl]
    · nlinarith [heq', hden]
  · have heq : 2 * q.num - 2 * ⌊q⌋ * q.den = (q.den : ℤ) :=
      le_antisymm (not_lt.mp h2) (not_lt.mp h1)
    have heq' : 2 * (q.num : ℚ) - 2 * (⌊q⌋ : ℚ) * (q.den : ℚ) = (q.den : ℚ) := by
      exact_mod_cast heq
    rw [hnum] at heq'
    push_cast
    constructor
    · nlinarith [heq', hden]
    · linarith [hfl2]

/-- Scaling `rhe_sub_bound` through the `.3f` format: the rounded value over
`10^3`, times a positive unit factor, is within `f/2000` of the exact one. -/
theorem roundtrip_bound (v f : ℚ) (hv : 0 ≤ v) (hf : 0 < f) :
    qabs ((((rhe (v * 10 ^ 3)).toNat : ℚ) / 10 ^ 3) * f - v * f) ≤ f / 2000 := by
  have hw : (0 : ℚ) ≤ v * 10 ^ 3 := by positivity
  have hnn : 0 ≤ rhe (v * 10 ^ 3) := rhe_nonneg hw
  have hcast : (((rhe (v * 10 ^ 3)).toNat : ℚ)) = ((rhe (v * 10 ^ 3) : ℤ) : ℚ) := by
    exact_mod_cast Int.toNat_of_nonneg hnn
  have hb := rhe_sub_bound (v * 10 ^ 3)
  rw [qabs_eq_abs] at hb ⊢
  rw [hcast]
  have hstep : ((rhe (v * 10 ^ 3) : ℤ) : ℚ) / 10 ^ 3 * f - v * f =
      (((rhe (v * 10 ^ 3) : ℤ) : ℚ) - v * 10 ^ 3) * (f / 10 ^ 3) := by
    ring
  rw [hstep, abs_mul, abs_of_nonneg (by positivity : (0 : ℚ) ≤ f / 10 ^ 3)]
  calc |((rhe (v * 10 ^ 3) : ℤ) : ℚ) - v * 10 ^ 3| * (f / 10 ^ 3) ≤
      (1 / 2) * (f / 10 ^ 3) := by
        exact mul_le_mul_of_nonneg_right hb (by positivity)
    _ = f / 2000 := by ring

theorem natDigitsAux_digits :
    ∀ fuel n c, c ∈ natDigitsAux fuel n → isAsciiDigit c = true := by
  intro fuel
  induction fuel with
  | zero =>
    intro n c hc
    simp [natDigitsAux] at hc
  | succ fuel ih =>
    intro n c hc
    rw [natDigitsAux] at hc
    by_cases h10 : n < 10
    · rw [if_pos h10] at hc
      simp only [List.mem_singleton] at hc
      subst hc
      interval_cases n <;> decide
    · rw [if_neg h10] at hc
      rcases List.mem_append.mp hc with h | h
      · exact ih (n / 10) c h
      · simp only [List.mem_singleton] at h
        subst h
        have h10' : n % 10 < 10 := Nat.mod_lt _ (by norm_num)
        generalize hg : n % 10 = m
        rw [hg] at h10'
        interval_cases m <;> decide

theorem natDigits_digits (n : Nat) : ∀ c ∈ natDigits n, isAsciiDigit c = true :=
  fun c hc => natDigitsAux_digits _ _ c hc

theorem natDigitsAux_ne_nil (fuel n : Nat) : natDigitsAux (fuel + 1) n ≠ [] := by
  rw [natDigitsAux]
  by_cases h10 : n < 10
  · rw [if_pos h10]
    exact List.cons_ne_nil _ _
  · rw [if_neg h10]
    intro h
    rcases List.append_eq_nil.mp h with ⟨_, h2⟩
    exact List.cons_ne_nil _ _ h2

theorem natDigits_ne_nil (n : Nat) : natDigits n ≠ [] := natDigitsAux_ne_nil n n

theorem digitsToNat_go (b : List Char) :
    ∀ a : Nat, b.foldl (fun a c => 10 * a + digitVal c) a =
      a * 10 ^ b.length + b.foldl (fun a c => 10 * a + digitVal c) 0 := by
  induction b with
  | nil =>
    intro a
    simp
  | cons c t ih =>
    intro a
    simp only [List.foldl_cons, List.length_cons]
    rw [ih (10 * a + digitVal c), ih (10 * 0 + digitVal c)]
    ring

theorem digitsToNat_append (a b : List Char) :
    digitsToNat (a ++ b) = digitsToNat a * 10 ^ b.length + digitsToNat b := by
  unfold digitsToNat
  rw [List.foldl_append]
  exact digitsToNat_go b _

theorem digitsToNat_natDigitsAux :
    ∀ fuel n, n < fuel → digitsToNat (natDigitsAux fuel n) = n := by
  intro fuel
  induction fuel with
  | zero =>
    intro n h
    exact absurd h (Nat.not_lt_zero n)
  | succ fuel ih =>
    intro n h
    rw [natDigitsAux]
    by_cases h10 : n < 10
    · rw [if_pos h10]
      interval_cases n <;> decide
    · rw [if_neg h10]
      rw [digitsToNat_append]
      have hdiv : n / 10 < fuel := by omega
      rw [ih (n / 10) hdiv]
      have hm : digitsToNat [Char.ofNat (48 + n % 10)] = n % 10 := by
        have h10' : n % 10 < 10 := Nat.mod_lt _ (by norm_num)
        generalize hg : n % 10 = m
        rw [hg] at h10'
        interval_cases m <;> decide
      rw [hm]
      have hl : ([Char.ofNat (48 + n % 10)] : List Char).length = 1 := rfl
      rw [hl, pow_one]
      omega

theorem digitsToNat_natDigits (n : Nat) : digitsToNat (natDigits n) = n :=
  digitsToNat_natDigitsAux (n + 1) n (Nat.lt_succ_self n)

theorem digitsToNat_replicate_zero (z : Nat) (b : List Char) :
    digitsToNat (List.replicate z '0' ++ b) = digitsToNat b := by
  rw [digitsToNat_append]
  have h0 : digitsToNat (List.replicate z '0') = 0 := by
    induction z with
    | zero => rfl
    | succ z ih =>
      rw [List.replicate_succ]
      unfold digitsToNat at ih ⊢
      simp only [List.foldl_cons]
      exact ih
  rw [h0, zero_mul, zero_add]

theorem natDigitsAux_length :
    ∀ fuel n k, n < 10 ^ k → 1 ≤ k → (natDigitsAux fuel n).length ≤ k := by
  intro fuel
  induction fuel with
  | zero =>
    intro n k _ hk
    simp [natDigitsAux]
  | succ fuel ih =>
    intro n k hn hk
    rw [natDigitsAux]
    by_cases h10 : n < 10
    · rw [if_pos h10]
      simpa using hk
    · rw [if_neg h10]
      rw [List.length_append]
      have hk2 : 2 ≤ k := by
        by_contra hcon
        have hk1 : k = 1 := by omega
        rw [hk1, pow_one] at hn
        exact h10 hn
      have hdiv : n / 10 < 10 ^ (k - 1) := by
        have h1 : 10 ^ k = 10 ^ (k - 1) * 10 := by
          rw [← pow_succ]
          congr 1
          omega
        rw [h1] at hn
        omega
      have hih := ih (n / 10) (k - 1) hdiv (by omega)
      have hl : ([Char.ofNat (48 + n % 10)] : List Char).length = 1 := rfl
      rw [hl]
      omega

theorem natDigits_length_le (n k : Nat) (hn : n < 10 ^ k) (hk : 1 ≤ k) :
    (natDigits n).length ≤ k :=
  natDigitsAux_length _ n k hn hk

/-- A decimal digit survives the comma filter and the micro-sign map, and is
not whitespace. -/
theorem digit_clean {c : Char} (h : isAsciiDigit c = true) :
    (!(c == ',')) = true ∧ microToU c = c ∧ pyIsSpace c = false := by
  have h' := h
  simp only [isAsciiDigit, Bool.and_eq_true, decide_eq_true_eq] at h'
  refine ⟨?_, ?_, ?_⟩
  · have hne : c ≠ ',' := by
      intro hc
      subst hc
      exact absurd h (by decide)
    simp [hne]
  · have hne : ¬((c = 'µ' || c = 'μ') = true) := by
      simp only [Bool.or_eq_true, decide_eq_true_eq]
      rintro (hc | hc) <;> subst hc <;> exact absurd h (by decide)
    unfold microToU
    rw [if_neg hne]
  · cases hps : pyIsSpace c with
    | false => rfl
    | true =>
      rw [space_not_digit hps] at h
      exact absurd h Bool.false_ne_true

theorem map_id_of_all {f : Char → Char} {l : List Char} (h : ∀ c ∈ l, f c = c) :
    l.map f = l := by
  induction l with
  | nil => rfl
  | cons a t ih =>
    rw [List.map_cons, h a (List.mem_cons_self a t),
      ih (fun c hc => h c (List.mem_cons_of_mem a hc))]

theorem pyStrip_eq_self {a b : Char} (mid : List Char) (ha : pyIsSpace a = false)
    (hb : pyIsSpace b = false) : pyStrip (a :: (mid ++ [b])) = a :: (mid ++ [b]) := by
  unfold pyStrip
  have h1 : pyRstrip (a :: (mid ++ [b])) = a :: (mid ++ [b]) := by
    rw [show a :: (mid ++ [b]) = (a :: mid) ++ [b] from rfl,
      pyRstrip_eq_self_of_last hb]
  rw [h1]
  exact pyLstrip_eq_self_of_head ha

/-- Formatting a value `v ≥ 1` with `%.3f` and appending a space and a clean
duration unit yields a string that `parse_duration` maps back to the rounded
numerator over `10^3`, times the unit factor. -/
theorem fmtFixed3_parse_core (v : ℚ) (u : List Char) (f : ℚ) (hv : 1 ≤ v)
    (hcl : ∀ c ∈ u, (!(c == ',')) = true ∧ microToU c = c)
    (hlast : ∃ u0 ulast, u = u0 ++ [ulast] ∧ pyIsSpace ulast = false)
    (hlow : (pyLower u = ['n', 's'] ∧ f = 1 / 10 ^ 9) ∨
      (pyLower u = ['u', 's'] ∧ f = 1 / 10 ^ 6) ∨
      (pyLower u = ['m', 's'] ∧ f = 1 / 10 ^ 3) ∨ (pyLower u = ['s'] ∧ f = 1)) :
    parse_duration (fmtFixed v 3 ++ (' ' :: u)) =
      some ((((rhe (v * 10 ^ 3)).toNat : ℚ) / 10 ^ 3) * f) := by
  have hv0 : ¬(v < 0) := not_lt.mpr (le_trans zero_le_one hv)
  have hqabs : qabs v = v := by
    unfold qabs
    rw [if_neg hv0]
  have hfmt : fmtFixed v 3 = natDigits ((rhe (v * 10 ^ 3)).toNat / 10 ^ 3) ++
      ('.' :: (List.replicate
          (3 - (natDigits ((rhe (v * 10 ^ 3)).toNat % 10 ^ 3)).length) '0' ++
        natDigits ((rhe (v * 10 ^ 3)).toNat % 10 ^ 3))) := by
    simp only [fmtFixed]
    rw [hqabs, if_neg hv0, if_neg (by norm_num : ¬((3 : Nat) = 0))]
    rw [List.nil_append]
  set N := (rhe (v * 10 ^ 3)).toNat with hN
  set dm := natDigits (N % 10 ^ 3) with hdm
  have hdmlen : dm.length ≤ 3 := by
    rw [hdm]
    exact natDigits_length_le _ 3 (Nat.mod_lt _ (by norm_num)) (by norm_num)
  have hd2len : (List.replicate (3 - dm.length) '0' ++ dm).length = 3 := by
    rw [List.length_append, List.length_replicate]
    omega
  have hd2ne : List.replicate (3 - dm.length) '0' ++ dm ≠ [] := by
    intro h
    have hlen := congrArg List.length h
    rw [hd2len] at hlen
    exact absurd hlen (by decide)
  have hd2dig : ∀ c ∈ List.replicate (3 - dm.length) '0' ++ dm,
      isAsciiDigit c = true := by
    intro c hc
    rcases List.mem_append.mp hc with h | h
    · rw [List.eq_of_mem_replicate h]
      decide
    · rw [hdm] at h
      exact natDigits_digits _ c h
  have hval : digitsToNat (natDigits (N / 10 ^ 3) ++
      (List.replicate (3 - dm.length) '0' ++ dm)) = N := by
    rw [digitsToNat_append, digitsToNat_replicate_zero, hdm,
      digitsToNat_natDigits, digitsToNat_natDigits, hd2len]
    have h3 : (10 : ℕ) ^ 3 = 1000 := by norm_num
    rw [h3]
    omega
  have hs_eq : fmtFixed v 3 ++ (' ' :: u) =
      [] ++ (natDigits (N / 10 ^ 3) ++
        (('.' :: (List.replicate (3 - dm.length) '0' ++ dm)) ++
          ([' '] ++ (u ++ [])))) := by
    rw [hfmt]
    simp only [List.nil_append, List.append_nil, List.cons_append,
      List.append_assoc]
  obtain ⟨u0, ulast, hu0, hulast⟩ := hlast
  obtain ⟨c0, d1t, hd1e⟩ := List.exists_cons_of_ne_nil (natDigits_ne_nil (N / 10 ^ 3))
  have hc0dig : isAsciiDigit c0 = true := by
    apply natDigits_digits (N / 10 ^ 3)
    rw [hd1e]
    exact List.mem_cons_self _ _
  have hc0sp : pyIsSpace c0 = false := (digit_clean hc0dig).2.2
  have hstrip : pyStrip (fmtFixed v 3 ++ (' ' :: u)) = fmtFixed v 3 ++ (' ' :: u) := by
    have hshape : fmtFixed v 3 ++ (' ' :: u) =
        c0 :: ((d1t ++ ('.' :: (List.replicate (3 - dm.length) '0' ++ dm)) ++
          (' ' :: u0)) ++ [ulast]) := by
      rw [hfmt, hd1e, hu0]
      simp only [List.cons_append, List.append_assoc, List.append_nil,
        List.nil_append]
    rw [hshape]
    exact pyStrip_eq_self _ hc0sp hulast
  have hallclean : ∀ c ∈ fmtFixed v 3 ++ (' ' :: u),
      (!(c == ',')) = true ∧ microToU c = c := by
    intro c hc
    rw [hfmt] at hc
    rcases List.mem_append.mp hc with h | h
    · rcases List.mem_append.mp h with h1 | h1
      · have hd := digit_clean (natDigits_digits _ c h1)
        exact ⟨hd.1, hd.2.1⟩
      · rcases List.mem_cons.mp h1 with h2 | h2
        · subst h2
          exact ⟨by decide, by decide⟩
        · have hd := digit_clean (hd2dig c h2)
          exact ⟨hd.1, hd.2.1⟩
    · rcases List.mem_cons.mp h with h2 | h2
      · subst h2
        exact ⟨by decide, by decide⟩
      · exact hcl c h2
  have hclean : ((pyStrip (fmtFixed v 3 ++ (' ' :: u))).filter
        (fun c => !(c == ','))).map microToU =
      [] ++ (natDigits (N / 10 ^ 3) ++
        (('.' :: (List.replicate (3 - dm.length) '0' ++ dm)) ++
          ([' '] ++ (u ++ [])))) := by
    rw [hstrip, List.filter_eq_self.mpr (fun c hc => (hallclean c hc).1),
      map_id_of_all (fun c hc => (hallclean c hc).2)]
    exact hs_eq
  have hmain := parse_duration_shaped (fmtFixed v 3 ++ (' ' :: u)) []
    (natDigits (N / 10 ^ 3)) (List.replicate (3 - dm.length) '0' ++ dm)
    ('.' :: (List.replicate (3 - dm.length) '0' ++ dm)) [' '] u [] 1 f
    hclean (Or.inl ⟨rfl, rfl⟩) (natDigits_digits _)
    (Or.inr ⟨rfl, hd2ne, hd2dig⟩)
    (by
      intro c hc
      simp only [List.mem_singleton] at hc
      subst hc
      decide)
    hlow
  rw [hval, hd2len] at hmain
  rw [hmain, one_mul]

/-- The scale (in seconds) of the unit `format_duration` selects, mirroring
its threshold chain; one 0.001 step of the formatted text is `durUnitFactor`
over `10^3` seconds. -/
def durUnitFactor (x : ℚ) : ℚ :=
  if qabs x < 1 / 10 ^ 6 then 1 / 10 ^ 9
  else if qabs x < 1 / 10 ^ 3 then 1 / 10 ^ 6
  else if qabs x < 1 then 1 / 10 ^ 3
  else 1

/-- C3: for every duration `x` of at least one nanosecond, parsing the
formatted duration succeeds, and the recovered value is within the 3-decimal
formatting precision of the unit `format_duration` selects — half a final
digit, i.e. `durUnitFactor x / 2000` seconds. -/
theorem c3_format_parse_roundtrip (x : ℚ) (hx : 1 / 10 ^ 9 ≤ x) :
    ∃ y, parse_duration (format_duration (some x)) = some y ∧
      qabs (y - x) ≤ durUnitFactor x / 2000 := by
  have hx0 : (0 : ℚ) < x := lt_of_lt_of_le (by norm_num) hx
  have hxnn : (0 : ℚ) ≤ x := le_of_lt hx0
  have hqx : qabs x = x := by
    unfold qabs
    rw [if_neg (not_lt.mpr hxnn)]
  simp only [format_duration]
  by_cases h1 : qabs x < 1 / 10 ^ 6
  · rw [if_pos h1]
    refine ⟨((rhe (x * 10 ^ 9 * 10 ^ 3)).toNat : ℚ) / 10 ^ 3 * (1 / 10 ^ 9), ?_, ?_⟩
    · rw [show (" ns".toList : List Char) = ' ' :: ['n', 's'] from rfl]
      exact fmtFixed3_parse_core (x * 10 ^ 9) ['n', 's'] (1 / 10 ^ 9)
        (by nlinarith [hx]) (by decide) ⟨['n'], 's', rfl, by decide⟩
        (Or.inl ⟨by decide, rfl⟩)
    · have hb := roundtrip_bound (x * 10 ^ 9) (1 / 10 ^ 9) (by positivity)
        (by norm_num)
      have hxv : x * 10 ^ 9 * (1 / 10 ^ 9) = x := by field_simp
      rw [hxv] at hb
      simp only [durUnitFactor]
      rw [if_pos h1]
      exact hb
  · rw [if_neg h1]
    have hge6 : 1 / 10 ^ 6 ≤ x := by
      rw [hqx] at h1
      exact not_lt.mp h1
    by_cases h2 : qabs x < 1 / 10 ^ 3
    · rw [if_pos h2]
      refine ⟨((rhe (x * 10 ^ 6 * 10 ^ 3)).toNat : ℚ) / 10 ^ 3 * (1 / 10 ^ 6), ?_, ?_⟩
      · rw [show (" us".toList : List Char) = ' ' :: ['u', 's'] from rfl]
        exact fmtFixed3_parse_core (x * 10 ^ 6) ['u', 's'] (1 / 10 ^ 6)
          (by nlinarith [hge6]) (by decide) ⟨['u'], 's', rfl, by decide⟩
          (Or.inr (Or.inl ⟨by decide, rfl⟩))
      · have hb := roundtrip_bound (x * 10 ^ 6) (1 / 10 ^ 6) (by positivity)
          (by norm_num)
        have hxv : x * 10 ^ 6 * (1 / 10 ^ 6) = x := by field_simp
        rw [hxv] at hb
        simp only [durUnitFactor]
        rw [if_neg h1, if_pos h2]
        exact hb
    · rw [if_neg h2]
      have hge3 : 1 / 10 ^ 3 ≤ x := by
        rw [hqx] at h2
        exact not_lt.mp h2
      by_cases h3 : qabs x < 1
      · rw [if_pos h3]
        refine ⟨((rhe (x * 10 ^ 3 * 10 ^ 3)).toNat : ℚ) / 10 ^ 3 * (1 / 10 ^ 3),
          ?_, ?_⟩
        · rw [show (" ms".toList : List Char) = ' ' :: ['m', 's'] from rfl]
          exact fmtFixed3_parse_core (x * 10 ^ 3) ['m', 's'] (1 / 10 ^ 3)
            (by nlinarith [hge3]) (by decide) ⟨['m'], 's', rfl, by decide⟩
            (Or.inr (Or.inr (Or.inl ⟨by decide, rfl⟩)))
        · have hb := roundtrip_bound (x * 10 ^ 3) (1 / 10 ^ 3) (by positivity)
            (by norm_num)
          have hxv : x * 10 ^ 3 * (1 / 10 ^ 3) = x := by field_simp
          rw [hxv] at hb
          simp only [durUnitFactor]
          rw [if_neg h1, if_neg h2, if_pos h3]
          exact hb
      · rw [if_neg h3]
        have hge1 : 1 ≤ x := by
          rw [hqx] at h3
          exact not_lt.mp h3
        refine ⟨((rhe (x * 10 ^ 3)).toNat : ℚ) / 10 ^ 3 * 1, ?_, ?_⟩
        · rw [show (" s".toList : List Char) = ' ' :: ['s'] from rfl]
          exact fmtFixed3_parse_core x ['s'] 1 hge1 (by decide)
            ⟨[], 's', rfl, by decide⟩ (Or.inr (Or.inr (Or.inr ⟨by decide, rfl⟩)))
        · have hb := roundtrip_bound x 1 hxnn one_pos
          rw [mul_one, mul_one] at hb
          rw [mul_one]
          simp only [durUnitFactor]
          rw [if_neg h1, if_neg h2, if_neg h3]
          exact hb

theorem c3_witness : (1 / 10 ^ 9 : ℚ) ≤ 1 ∧
    ∃ y, parse_duration (format_duration (some 1)) = some y ∧
      qabs (y - 1) ≤ durUnitFactor 1 / 2000 :=
  ⟨by norm_num, c3_format_parse_roundtrip 1 (by norm_num)⟩

end Sparky
